import Mathlib

/-!
Verification of the gtfs-fixer coordinate-normalization tool (src/main.rs).

The development shallowly embeds the three core functions of the program:

* `format_coordinate` (main.rs lines 33-40): parse a string as an `f64`
  (Rust `str::parse::<f64>`, i.e. correctly-rounded round-to-nearest,
  ties-to-even binary64 conversion) and on success re-render it with
  `format!("{:.8}", v)` (exact decimal rendering of the binary64 value,
  rounded to 8 fractional digits, ties to even); on failure return the
  input unchanged.
* `find_column_indices` (main.rs lines 52-75): case-insensitive,
  whitespace-trimmed resolution of column names to 0-based header
  positions via a hash map built from the header (later duplicate
  header names overwrite earlier ones).
* `process_gtfs_file` (main.rs lines 89-236): stream the records of the
  file, reformat the two coordinate fields of each well-formed row, skip
  malformed rows with a warning, write everything after the unmodified
  header to a sibling `.tmp` file, flush, and rename it over the original.

Binary64 values are modelled exactly: a finite double is a sign together
with an integer significand `m` and binary exponent `e` (value
`(-1)^s * m * 2^e`); parsing rounds the exact decimal value of the input
to the nearest representable value (ties to even) exactly as Rust's
`dec2flt` does, and formatting rounds the exact binary value to 8 decimal
digits (ties to even) exactly as Rust's `flt2dec` does.  All executable
arithmetic is performed on unnormalized `num/den` pairs of natural
numbers so that every definition evaluates inside the kernel; rational
numbers (`ℚ`) appear only in specifications and proofs.
-/

set_option exponentiation.threshold 5000
set_option maxRecDepth 8000

/-! ### Fuelled base-2 logarithm and decimal digits -/

/-- Fuelled floor-log2 on naturals: `log2F f n` is `⌊log₂ n⌋` whenever
`n ≤ f` (and `1 ≤ n`). -/
def log2F : ℕ → ℕ → ℕ
| 0, _ => 0
| f+1, n => if 2 ≤ n then log2F f (n / 2) + 1 else 0

/-- `⌊log₂ n⌋` for `1 ≤ n` (0 at 0), computable by kernel reduction. -/
def natLog2 (n : ℕ) : ℕ := log2F n n

/-- Fuelled most-significant-first decimal digit list of a natural. -/
def digitsF : ℕ → ℕ → List ℕ
| 0, _ => []
| f+1, n => if n < 10 then [n] else digitsF f (n / 10) ++ [n % 10]

/-- Most-significant-first decimal digits of `n` (`natDigits 0 = [0]`). -/
def natDigits (n : ℕ) : List ℕ := digitsF (n + 1) n

/-- Value of a most-significant-first decimal digit list. -/
def digitsVal (ds : List ℕ) : ℕ := ds.foldl (fun a d => 10 * a + d) 0

/-! ### Unnormalized fractions of naturals

A nonnegative exact value is carried as a `num/den` pair; denominators are
always positive (products of powers of 2 and 10).  No gcd normalization is
ever performed, so every operation kernel-reduces. -/

/-- An unnormalized nonnegative fraction: numerator and denominator. -/
structure Frac where
  num : ℕ
  den : ℕ
deriving DecidableEq

/-- The rational value of a `Frac`. -/
def Frac.toRat (x : Frac) : ℚ := (x.num : ℚ) / (x.den : ℚ)

/-- `x < y` as fractions (cross multiplication; dens assumed positive). -/
def fracLt (x y : Frac) : Bool := x.num * y.den < y.num * x.den

/-- `x ≤ y` as fractions (cross multiplication; dens assumed positive). -/
def fracLe (x y : Frac) : Bool := x.num * y.den ≤ y.num * x.den

/-- Multiply a fraction by a natural number. -/
def fracMulNat (x : Frac) (k : ℕ) : Frac := ⟨x.num * k, x.den⟩

/-- Divide a fraction by `2^c` (for any integer `c`). -/
def fracDivPow2 (x : Frac) (c : ℤ) : Frac :=
  if 0 ≤ c then ⟨x.num, x.den * 2 ^ c.toNat⟩ else ⟨x.num * 2 ^ (-c).toNat, x.den⟩

/-- The fraction `2^c` for an integer `c`. -/
def pow2Frac (c : ℤ) : Frac :=
  if 0 ≤ c then ⟨2 ^ c.toNat, 1⟩ else ⟨1, 2 ^ (-c).toNat⟩

/-- The fraction `m * 2^e` for a natural significand and integer exponent. -/
def valFrac (m : ℕ) (e : ℤ) : Frac :=
  if 0 ≤ e then ⟨m * 2 ^ e.toNat, 1⟩ else ⟨m, 2 ^ (-e).toNat⟩

/-- The fraction `mant * 10^e10`: exact value of a parsed decimal literal. -/
def decFrac (mant : ℕ) (e10 : ℤ) : Frac :=
  if 0 ≤ e10 then ⟨mant * 10 ^ e10.toNat, 1⟩ else ⟨mant, 10 ^ (-e10).toNat⟩

/-- Round a nonnegative fraction to the nearest natural, ties to even. -/
def rheFrac (x : Frac) : ℕ :=
  let n := x.num / x.den
  let r := x.num % x.den
  if 2 * r < x.den then n
  else if x.den < 2 * r then n + 1
  else if n % 2 = 0 then n else n + 1

/-- `⌊log₂ x⌋` of a positive fraction, from the logs of `num` and `den`
(the `natLog2` candidate can be off by one, so it is corrected by two
exact comparisons). -/
def fracLog2 (x : Frac) : ℤ :=
  let c : ℤ := (natLog2 x.num : ℤ) - (natLog2 x.den : ℤ)
  if fracLt x (pow2Frac c) then c - 1
  else if fracLt x (pow2Frac (c + 1)) then c else c + 1

/-! ### The binary64 model -/

/-- Model of Rust's `f64`: a finite value `(-1)^sign * m * 2^e` (signed
zeros included), a signed infinity, or NaN.  `sign = true` means
negative. -/
inductive F64 where
| finite (sign : Bool) (m : ℕ) (e : ℤ)
| inf (sign : Bool)
| nan
deriving DecidableEq

/-- The exact rational value of a finite binary64: `m * 2^e` (magnitude). -/
def fval (m : ℕ) (e : ℤ) : ℚ := (m : ℚ) * 2 ^ e

/-- The signed exact rational value of an `F64` (junk value 0 for
non-finite inputs). -/
def F64.ratVal : F64 → ℚ
| .finite s m e => (if s then -1 else 1) * fval m e
| _ => 0

/-- Whether an `F64` is finite. -/
def F64.isFinite : F64 → Bool
| .finite _ _ _ => true
| _ => false

/-- Round a positive exact value `x` to the nearest binary64 of the given
sign, ties to even, overflowing to infinity exactly when the rounded
value reaches `2^1024` — the semantics of Rust's `str::parse::<f64>` on
the exact decimal value of a literal. -/
def roundMag (sign : Bool) (x : Frac) : F64 :=
  let L := fracLog2 x
  let E := max (L - 52) (-1074)
  let m := rheFrac (fracDivPow2 x E)
  if fracLe (pow2Frac 1024) (valFrac m E) then .inf sign else .finite sign m E

/-! ### The f64 string parser (Rust `str::parse::<f64>`, core `dec2flt`) -/

/-- ASCII decimal digit test. -/
def isDigitC (c : Char) : Bool := 48 ≤ c.toNat && c.toNat ≤ 57

/-- Value of an ASCII decimal digit. -/
def digitValC (c : Char) : ℕ := c.toNat - 48

/-- Value of a most-significant-first list of ASCII digits. -/
def digitsValC (ds : List Char) : ℕ := ds.foldl (fun a c => 10 * a + digitValC c) 0

/-- Whitespace as trimmed by Rust's `str::trim` (restricted to the ASCII
white-space characters; the full Unicode `White_Space` set is not
modelled). -/
def isWS (c : Char) : Bool := c = ' ' || c = '\t' || c = '\n' || c = '\r'

/-- Model of Rust `str::trim`: drop leading and trailing whitespace. -/
def trimChars (cs : List Char) : List Char :=
  ((cs.dropWhile isWS).reverse.dropWhile isWS).reverse

/-- Consume an optional leading sign; `true` means negative. -/
def readSign : List Char → Bool × List Char
| '-' :: tl => (true, tl)
| '+' :: tl => (false, tl)
| cs => (false, cs)

/-- After the optional sign, Rust accepts exactly `inf`, `infinity` and
`nan` case-insensitively as special values. -/
def parseSpecial (sign : Bool) (cs : List Char) : Option F64 :=
  let low := cs.map Char.toLower
  if low = ['i', 'n', 'f'] then some (.inf sign)
  else if low = ['i', 'n', 'f', 'i', 'n', 'i', 't', 'y'] then some (.inf sign)
  else if low = ['n', 'a', 'n'] then some F64.nan
  else none

/-- Build the result from sign, mantissa digits and decimal exponent:
round the exact value `mant * 10^e10` to binary64 (zero mantissa short
circuits to a signed zero). -/
def mkF64 (sign : Bool) (mant : ℕ) (e10 : ℤ) : F64 :=
  if mant = 0 then .finite sign 0 (-1074) else roundMag sign (decFrac mant e10)

/-- Parse the decimal-literal part after the sign: integer digits, an
optional fraction introduced by `'.'`, and an optional exponent
introduced by `e`/`E` with optional sign and mandatory digits; the whole
input must be consumed, and at least one mantissa digit must be present
(Rust core `dec2flt` grammar). -/
def parseDec (sign : Bool) (cs : List Char) : Option F64 :=
  let intDs := cs.takeWhile isDigitC
  let r1 := cs.dropWhile isDigitC
  let fracDs := match r1 with
    | '.' :: tl => tl.takeWhile isDigitC
    | _ => []
  let r2 := match r1 with
    | '.' :: tl => tl.dropWhile isDigitC
    | _ => r1
  if intDs.length + fracDs.length = 0 then none
  else
    match r2 with
    | [] => some (mkF64 sign (digitsValC (intDs ++ fracDs)) (-(fracDs.length : ℤ)))
    | c :: tl =>
      if c = 'e' ∨ c = 'E' then
        let p := readSign tl
        let eDs := p.2.takeWhile isDigitC
        let r3 := p.2.dropWhile isDigitC
        if eDs.length = 0 ∨ r3 ≠ [] then none
        else
          let e10 : ℤ := (if p.1 then -(digitsValC eDs : ℤ) else (digitsValC eDs : ℤ))
            - (fracDs.length : ℤ)
          some (mkF64 sign (digitsValC (intDs ++ fracDs)) e10)
      else none

/-- Model of Rust `str::parse::<f64>` on a character list: empty input
fails; otherwise read the sign, then either a special value (`inf`,
`infinity`, `nan`) or a decimal literal. -/
def parse_f64 : List Char → Option F64
| [] => none
| c :: cs =>
  let p := readSign (c :: cs)
  match parseSpecial p.1 p.2 with
  | some v => some v
  | none => parseDec p.1 p.2

/-! ### Fixed-precision rendering (Rust `format!("{:.8}", v)`) -/

/-- ASCII character of a decimal digit. -/
def charOfDigit (d : ℕ) : Char := Char.ofNat (48 + d)

/-- Most-significant-first ASCII digits of a natural number. -/
def natChars (n : ℕ) : List Char := (natDigits n).map charOfDigit

/-- Left-pad a digit list with `'0'` to length 8. -/
def padZeros8 (l : List Char) : List Char := List.replicate (8 - l.length) '0' ++ l

/-- Model of `format!("{:.8}", v)`: finite values are rendered as the
exact binary value rounded to 8 fractional decimal digits (ties to
even), with the sign of negative values (including `-0.0`); infinities
render as `inf`/`-inf` and NaN as `NaN`, the precision being ignored. -/
def formatFixed8 : F64 → String
| .nan => "NaN"
| .inf s => if s then "-inf" else "inf"
| .finite s m e =>
  let n := rheFrac (fracMulNat (valFrac m e) (10 ^ 8))
  String.mk ((if s then ['-'] else []) ++
    natChars (n / 10 ^ 8) ++ '.' :: padZeros8 (natChars (n % 10 ^ 8)))

/-- `format_coordinate` (main.rs lines 33-40): trim the input, attempt to
parse it as an `f64`, and on success render it with 8 fractional digits;
on parse failure return the original string unchanged. -/
def format_coordinate (s : String) : String :=
  match parse_f64 (trimChars s.data) with
  | some v => formatFixed8 v
  | none => s

/-! ### Column resolution (`find_column_indices`, main.rs lines 52-75) -/

/-- Model of Rust `str::trim` on `String`. -/
def strTrim (s : String) : String := ⟨trimChars s.data⟩

/-- Model of Rust `str::to_lowercase` (ASCII fragment). -/
def strLower (s : String) : String := ⟨s.data.map Char.toLower⟩

/-- The key under which a header cell is stored in the header map:
`name.trim().to_lowercase()` (main.rs line 61). -/
def headerKey (name : String) : String := strLower (strTrim name)

/-- Lookup in the map built by inserting `(headerKey name, index)` for
every header cell in order, `i` being the index of the first listed
cell; a later insertion with the same key overwrites an earlier one
(Rust `HashMap` semantics of main.rs lines 58-62), so the LAST matching
header position wins. -/
def headerMapFrom : ℕ → List String → String → Option ℕ
| _, [], _ => none
| i, h :: hs, k =>
  match headerMapFrom (i + 1) hs k with
  | some j => some j
  | none => if k = headerKey h then some i else none

/-- The name→position map built from the header record. -/
def headerMap (headers : List String) (k : String) : Option ℕ :=
  headerMapFrom 0 headers k

/-- Result of `find_column_indices`: a map from lowercased requested
names to 0-based positions, or an error message (the Rust function
returns `Result<HashMap<String, usize>, Box<dyn Error>>`). -/
inductive FindRes where
| ok (indices : List (String × ℕ))
| err (msg : String)
deriving DecidableEq

/-- The loop of main.rs lines 65-73: look each requested name up under
its lowercased form, recording `(lowercased name, index)`, and fail on
the first name that is absent. -/
def collectIndices (hm : String → Option ℕ) : List String → FindRes
| [] => .ok []
| n :: ns =>
  match hm (strLower n) with
  | some i =>
    match collectIndices hm ns with
    | .ok rest => .ok ((strLower n, i) :: rest)
    | .err e => .err e
  | none => .err ("Required column '" ++ n ++ "' not found in header.")

/-- `find_column_indices` (main.rs lines 52-75). -/
def find_column_indices (headers : List String) (col_names : List String) : FindRes :=
  collectIndices (headerMap headers) col_names

/-! ### The streaming row transform (main.rs lines 172-213)

Files are modelled at the record level: a file's content is its list of
records (lists of field strings), the first record being the header; the
CSV surface syntax (delimiters, quoting) is the csv crate's concern and
is outside the model. -/

/-- The per-field loop of main.rs lines 193-202, with `i` the index of
the first field: coordinate positions go through `format_coordinate`,
all other fields are copied unchanged. -/
def transform_fields (lat lon : ℕ) : ℕ → List String → List String
| _, [] => []
| i, f :: fs =>
  (if i = lat ∨ i = lon then format_coordinate f else f) :: transform_fields lat lon (i + 1) fs

/-- The transformed output row for an input row. -/
def transform_row (lat lon : ℕ) (r : List String) : List String :=
  transform_fields lat lon 0 r

/-- The malformed-row test of main.rs line 179. -/
def malformed (lat lon : ℕ) (r : List String) : Bool :=
  r.length ≤ lat || r.length ≤ lon

/-- One data row's fate in the inner loop, ignoring I/O: `none` if the
row is skipped as malformed, otherwise the transformed row. -/
def process_row (lat lon : ℕ) (r : List String) : Option (List String) :=
  if malformed lat lon r then none else some (transform_row lat lon r)

/-- All data rows of a file through the inner loop. -/
def transform_rows (lat lon : ℕ) (rows : List (List String)) : List (List String) :=
  rows.filterMap (process_row lat lon)

/-! ### File-system level model of `process_gtfs_file` (main.rs 89-236)

The observable file-system actions are modelled as a trace, and writes
are fallible through an oracle `wOk : ℕ → Bool` giving the success of
the `n`-th write operation (the header write is operation 0, then one
operation per written row, then the final flush).  The csv reader is
constructed with the crate's default `flexible(false)`, so reading a
record whose field count differs from the header's returns an
`UnequalLengths` error which the `?` on `read_record` propagates; this
is modelled by the `readFail` outcome. -/

/-- Observable file-system operations of one `process_gtfs_file` call. -/
inductive FsOp where
| createTemp
| writeRec (r : List String)
| flushTemp
| renameTempToOrig
deriving DecidableEq

/-- Errors surfaced by `process_gtfs_file` (the Rust function returns
`Box<dyn Error>`; only the error's provenance is modelled). -/
inductive PErr where
| columnNotFound (msg : String)
| readUnequal (expected got : ℕ)
| ioWrite (opIdx : ℕ)
| ioFlush (opIdx : ℕ)
deriving DecidableEq

/-- Success or failure of one `process_gtfs_file` call. -/
inductive PRes where
| ok
| err (e : PErr)
deriving DecidableEq

/-- State of the record-writing loop: records written to the temp file
so far (the header first), the index of the next write operation, the
processed-row counter of main.rs line 173, and the malformed-row
warnings (row display number and field count, the argument pair of the
diagnostic at main.rs lines 180-186). -/
structure LoopSt where
  written : List (List String)
  opIdx : ℕ
  count : ℕ
  warns : List (ℕ × ℕ)
deriving DecidableEq

/-- Outcome of the record loop: completion, a failed row write, or a csv
read error on a row whose field count differs from the header's. -/
inductive LoopRes where
| ok (st : LoopSt)
| writeFail (st : LoopSt)
| readFail (st : LoopSt) (got : ℕ)
deriving DecidableEq

/-- The while loop of main.rs lines 177-213.  Each row is first length
checked by the csv reader (default non-flexible mode) against the
header length; then the guard of line 179 may skip it as malformed with
a warning; otherwise the transformed row is written, fallibly. -/
def rowLoop (wOk : ℕ → Bool) (headerLen lat lon : ℕ) :
    List (List String) → LoopSt → LoopRes
| [], st => .ok st
| r :: rs, st =>
  if r.length ≠ headerLen then .readFail st r.length
  else if malformed lat lon r then
    rowLoop wOk headerLen lat lon rs
      ⟨st.written, st.opIdx, st.count, st.warns ++ [(st.count + 1, r.length)]⟩
  else if wOk st.opIdx then
    rowLoop wOk headerLen lat lon rs
      ⟨st.written ++ [transform_row lat lon r], st.opIdx + 1, st.count + 1, st.warns⟩
  else .writeFail st

/-- The temp file's name, `<original>.tmp` (main.rs line 97). -/
def temp_output_filename (filename : String) : String := filename ++ ".tmp"

/-- Observable result of one `process_gtfs_file` call: outcome, trace of
file-system operations, content of the target file and of the temp file
afterwards (`none` = absent), the processed-record count, and the
malformed-row diagnostics. -/
structure PResult where
  result : PRes
  trace : List FsOp
  origAfter : Option (List (List String))
  tempAfter : Option (List (List String))
  count : ℕ
  warns : List (ℕ × ℕ)
deriving DecidableEq

/-- `process_gtfs_file` (main.rs lines 89-236) over the record-level
file model.  A missing input file returns success immediately (lines
103-111).  Column resolution (lines 126-147) happens before the temp
file is created (line 161); on resolution failure nothing has been
written.  Then the header is written (line 166, write operation 0), the
rows are streamed (lines 177-213), the writer is flushed (line 221) and
the temp file is renamed over the original (line 229).  On any failure
after creation the temp file is left in place and the original is
untouched. -/
def process_gtfs_file (filename latName lonName : String)
    (input : Option (List (List String))) (wOk : ℕ → Bool) : PResult :=
  match input with
  | none => ⟨.ok, [], none, none, 0, []⟩
  | some content =>
    let header := content.headD []
    match find_column_indices header [latName, lonName] with
    | .err e => ⟨.err (.columnNotFound e), [], some content, none, 0, []⟩
    | .ok mp =>
      let lat := (mp.lookup (strLower latName)).getD 0
      let lon := (mp.lookup (strLower lonName)).getD 0
      if wOk 0 then
        match rowLoop wOk header.length lat lon content.tail ⟨[header], 1, 0, []⟩ with
        | .ok st =>
          if wOk st.opIdx then
            ⟨.ok, .createTemp :: st.written.map .writeRec ++ [.flushTemp, .renameTempToOrig],
             some st.written, none, st.count, st.warns⟩
          else
            ⟨.err (.ioFlush st.opIdx), .createTemp :: st.written.map .writeRec,
             some content, some st.written, st.count, st.warns⟩
        | .writeFail st =>
          ⟨.err (.ioWrite st.opIdx), .createTemp :: st.written.map .writeRec,
           some content, some st.written, st.count, st.warns⟩
        | .readFail st got =>
          ⟨.err (.readUnequal header.length got), .createTemp :: st.written.map .writeRec,
           some content, some st.written, st.count, st.warns⟩
      else
        ⟨.err (.ioWrite 0), [.createTemp], some content, some [], 0, []⟩

/-- The all-writes-succeed oracle (no I/O failures). -/
def allOk : ℕ → Bool := fun _ => true

/-! ### Auxiliary predicate: exactly 8 digits after the decimal point -/

/-- The characters after the last `'.'` of a string, or `none` if the
string contains no `'.'`. -/
def decimalTail (cs : List Char) : Option (List Char) :=
  if '.' ∈ cs then some ((cs.reverse.takeWhile (fun c => c ≠ '.')).reverse) else none

/-- Whether a string has exactly 8 decimal digits after its (last)
decimal point. -/
def hasExactly8FracDigits (s : String) : Bool :=
  match decimalTail s.data with
  | some t => t.length = 8 && t.all isDigitC
  | none => false

/-! ### Specification-side definitions used by the proofs -/

/-- Round half to even on rationals (specification-side mirror of
`rheFrac`). -/
def rheQ (q : ℚ) : ℤ :=
  if q - ⌊q⌋ < 1/2 then ⌊q⌋
  else if 1/2 < q - ⌊q⌋ then ⌊q⌋ + 1
  else if 2 ∣ ⌊q⌋ then ⌊q⌋ else ⌊q⌋ + 1

/-- The exponent chosen by `roundMag` for a positive input. -/
def rmE (x : Frac) : ℤ := max (fracLog2 x - 52) (-1074)

/-- The significand chosen by `roundMag` for a positive input. -/
def rmM (x : Frac) : ℕ := rheFrac (fracDivPow2 x (rmE x))

/-- A representable binary64 magnitude: exponent at least `-1074`,
significand at most `2^53`, value below `2^1024`, and normal (at least
`2^52`) whenever the exponent is above the subnormal range. -/
def wellFormed (m : ℕ) (e : ℤ) : Prop :=
  -1074 ≤ e ∧ m ≤ 2 ^ 53 ∧ fval m e < (2:ℚ) ^ (1024 : ℤ) ∧ (-1074 < e → 2 ^ 52 ≤ m)

/-- The integer rendered by `formatFixed8` for the magnitude `m * 2^e`:
the exact value scaled by `10^8` and rounded to the nearest integer,
ties to even. -/
def rnd8 (m : ℕ) (e : ℤ) : ℕ := rheFrac (fracMulNat (valFrac m e) (10 ^ 8))

/-! ### Sanity examples (kernel-checked evaluations of the model) -/

example : process_gtfs_file "stops.txt" "stop_lat" "stop_lon" none allOk =
    ⟨.ok, [], none, none, 0, []⟩ := by decide

example :
    (process_gtfs_file "stops.txt" "stop_lat" "stop_lon"
      (some [["stop_id", "stop_name", "stop_lat", "stop_lon"],
             ["1", "A", "45.1", "-73.5"]]) allOk).origAfter =
    some [["stop_id", "stop_name", "stop_lat", "stop_lon"],
          ["1", "A", "45.10000000", "-73.50000000"]] := by decide

example : format_coordinate "45.1" = "45.10000000" := by decide
example : format_coordinate "-73.5" = "-73.50000000" := by decide
example : format_coordinate "N/A" = "N/A" := by decide
example : format_coordinate "" = "" := by decide
example : format_coordinate "1.5e3" = "1500.00000000" := by decide
example : format_coordinate " 45.1 " = "45.10000000" := by decide
example : format_coordinate "inf" = "inf" := by decide
example : format_coordinate "-0" = "-0.00000000" := by decide
example : format_coordinate "NaN" = "NaN" := by decide
example : hasExactly8FracDigits "45.10000000" = true := by decide
example : hasExactly8FracDigits "inf" = false := by decide

/-! ### Claim C9: identity fallback on non-parsing input -/

/-- C9: for every input string that does not parse as a floating-point
number, `format_coordinate` returns the input unchanged and raises no
error, so non-numeric or empty coordinate fields pass through
untouched. -/
theorem C9_identity_fallback (T : String)
    (h : parse_f64 (trimChars T.data) = none) : format_coordinate T = T := by
  unfold format_coordinate
  rw [h]

/-- Witness for C9 at the non-numeric input `"N/A"`. -/
theorem C9_identity_fallback_witness : format_coordinate "N/A" = "N/A" :=
  C9_identity_fallback "N/A" (by decide)

/-! ### Claim C8: missing optional file -/

/-- C8: when an optional target file (here `shapes.txt`) is absent,
`process_gtfs_file` returns success, performs no file-system operation —
in particular it creates no output file — and raises no error, for every
write oracle. -/
theorem C8_missing_optional_file_ok (wOk : ℕ → Bool) :
    process_gtfs_file "shapes.txt" "shape_pt_lat" "shape_pt_lon" none wOk =
      ⟨.ok, [], none, none, 0, []⟩ := rfl

/-! ### Claim C7: missing mandatory file (refuted) -/

/-- C7 counterexample: with the primary stop-location file `stops.txt`
absent, `process_gtfs_file` returns success (not a file-not-found
error), contradicting the claim that absence of the mandatory file is a
hard failure; main.rs lines 103-111 return `Ok(())` for every missing
file. -/
theorem C7_missing_mandatory_counterexample :
    (process_gtfs_file "stops.txt" "stop_lat" "stop_lon" none allOk).result = .ok ∧
    (process_gtfs_file "stops.txt" "stop_lat" "stop_lon" none allOk).tempAfter = none := by
  decide

/-- C7 amended: when the primary stop-location file `stops.txt` is
absent from the directory, processing of that file returns success (the
absence is treated as benign, exactly as for optional files), no temp
file is created, and the directory is unchanged. -/
theorem C7_missing_mandatory_amended (wOk : ℕ → Bool) :
    process_gtfs_file "stops.txt" "stop_lat" "stop_lon" none wOk =
      ⟨.ok, [], none, none, 0, []⟩ := rfl

/-! ### Lemmas about the header map and column resolution -/

theorem headerMapFrom_append (i : ℕ) (xs ys : List String) (k : String) :
    headerMapFrom i (xs ++ ys) k =
      match headerMapFrom (i + xs.length) ys k with
      | some j => some j
      | none => headerMapFrom i xs k := by
  induction xs generalizing i with
  | nil =>
    simp only [List.nil_append, List.length_nil, Nat.add_zero]
    cases headerMapFrom i ys k <;> simp [headerMapFrom]
  | cons h hs ih =>
    simp only [List.cons_append, headerMapFrom, List.length_cons, List.append_eq]
    rw [ih (i + 1)]
    have he : i + 1 + hs.length = i + (hs.length + 1) := by omega
    rw [he]
    cases headerMapFrom (i + (hs.length + 1)) ys k <;>
      cases headerMapFrom (i + 1) hs k <;> rfl

theorem headerMapFrom_none_of_no_match (i : ℕ) (hs : List String) (k : String)
    (h : ∀ m ∈ hs, headerKey m ≠ k) : headerMapFrom i hs k = none := by
  induction hs generalizing i with
  | nil => rfl
  | cons x xs ih =>
    simp only [headerMapFrom]
    rw [ih (i + 1) (fun m hm => h m (List.mem_cons_of_mem x hm))]
    have hx : k ≠ headerKey x := fun hk => (h x (List.mem_cons_self x xs)) hk.symm
    simp [hx]

theorem headerMapFrom_some_spec (i : ℕ) (hs : List String) (k : String) (j : ℕ)
    (h : headerMapFrom i hs k = some j) :
    ∃ t, ∃ ht : t < hs.length, j = i + t ∧ headerKey (hs.get ⟨t, ht⟩) = k := by
  induction hs generalizing i j with
  | nil => exact absurd h (by simp [headerMapFrom])
  | cons x xs ih =>
    cases hr : headerMapFrom (i + 1) xs k with
    | some j' =>
      simp only [headerMapFrom, hr] at h
      cases h
      obtain ⟨t, ht, hj, hkey⟩ := ih _ _ hr
      exact ⟨t + 1, by simpa using Nat.succ_lt_succ ht, by omega, hkey⟩
    | none =>
      simp only [headerMapFrom, hr] at h
      by_cases hk : k = headerKey x
      · rw [if_pos hk] at h
        cases h
        exact ⟨0, by simp, by omega, hk.symm⟩
      · rw [if_neg hk] at h
        exact absurd h (by simp)

theorem headerMapFrom_isSome_of_match (i t : ℕ) (hs : List String) (k : String)
    (ht : t < hs.length) (hget : headerKey (hs.get ⟨t, ht⟩) = k) :
    ∃ j, headerMapFrom i hs k = some j := by
  induction hs generalizing i t with
  | nil => exact absurd ht (by simp)
  | cons x xs ih =>
    cases hr : headerMapFrom (i + 1) xs k with
    | some j => exact ⟨j, by simp [headerMapFrom, hr]⟩
    | none =>
      cases t with
      | zero =>
        refine ⟨i, ?_⟩
        simp only [headerMapFrom, hr]
        simp only [List.get] at hget
        simp [hget]
      | succ t' =>
        have ht' : t' < xs.length := by simpa using Nat.lt_of_succ_lt_succ ht
        obtain ⟨j, hj⟩ := ih (i + 1) t' ht' hget
        rw [hj] at hr
        exact absurd hr (by simp)

theorem headerMap_some_spec (hs : List String) (k : String) (j : ℕ)
    (h : headerMap hs k = some j) :
    ∃ ht : j < hs.length, headerKey (hs.get ⟨j, ht⟩) = k := by
  obtain ⟨t, ht, hj, hkey⟩ := headerMapFrom_some_spec 0 hs k j h
  have hjt : j = t := by omega
  subst hjt
  exact ⟨ht, hkey⟩

theorem headerMap_none_iff (hs : List String) (k : String) :
    headerMap hs k = none ↔ ∀ m ∈ hs, headerKey m ≠ k := by
  constructor
  · intro h m hm hkey
    obtain ⟨⟨t, ht⟩, hget⟩ := List.mem_iff_get.mp hm
    obtain ⟨j, hj⟩ := headerMapFrom_isSome_of_match 0 t hs k ht (by rw [hget]; exact hkey)
    rw [headerMap] at h
    rw [h] at hj
    exact absurd hj (by simp)
  · exact headerMapFrom_none_of_no_match 0 hs k

theorem collectIndices_ok_lookup (hm : String → Option ℕ) (cols : List String)
    (mp : List (String × ℕ)) (h : collectIndices hm cols = .ok mp) :
    ∀ n ∈ cols, ∃ i, mp.lookup (strLower n) = some i ∧ hm (strLower n) = some i := by
  induction cols generalizing mp with
  | nil => intro n hn; exact absurd hn (by simp)
  | cons n0 ns ih =>
    intro n hn
    cases hh : hm (strLower n0) with
    | none =>
      simp only [collectIndices, hh] at h
      exact absurd h (by simp)
    | some i0 =>
      cases hr : collectIndices hm ns with
      | err e =>
        simp only [collectIndices, hh, hr] at h
        exact absurd h (by simp)
      | ok rest =>
        simp only [collectIndices, hh, hr] at h
        cases h
        rcases List.mem_cons.mp hn with hn0 | hns
        · subst hn0
          exact ⟨i0, by simp [List.lookup], hh⟩
        · obtain ⟨i, hlook, hhm⟩ := ih rest hr n hns
          by_cases hkey : strLower n = strLower n0
          · refine ⟨i0, ?_, by rw [hkey]; exact hh⟩
            simp [List.lookup, hkey]
          · refine ⟨i, ?_, hhm⟩
            have hbeq : (strLower n == strLower n0) = false := by
              simp [hkey]
            simp only [List.lookup, hbeq]
            exact hlook

theorem collectIndices_err_iff (hm : String → Option ℕ) (cols : List String) :
    (∃ e, collectIndices hm cols = .err e) ↔ ∃ n ∈ cols, hm (strLower n) = none := by
  induction cols with
  | nil => simp [collectIndices]
  | cons n0 ns ih =>
    cases hh : hm (strLower n0) with
    | none =>
      constructor
      · intro _
        exact ⟨n0, List.mem_cons_self n0 ns, hh⟩
      · intro _
        exact ⟨"Required column '" ++ n0 ++ "' not found in header.",
          by simp only [collectIndices, hh]⟩
    | some i0 =>
      cases hr : collectIndices hm ns with
      | err e =>
        constructor
        · intro _
          obtain ⟨n, hn, hnone⟩ := ih.mp ⟨e, hr⟩
          exact ⟨n, List.mem_cons_of_mem n0 hn, hnone⟩
        · intro _
          refine ⟨e, ?_⟩
          simp only [collectIndices, hh, hr]
      | ok rest =>
        constructor
        · rintro ⟨e, he⟩
          simp only [collectIndices, hh, hr] at he
          exact absurd he (by simp)
        · rintro ⟨n, hn, hnone⟩
          rcases List.mem_cons.mp hn with hn0 | hns
          · subst hn0
            rw [hh] at hnone
            exact absurd hnone (by simp)
          · obtain ⟨e, he⟩ := ih.mpr ⟨n, hns, hnone⟩
            rw [he] at hr
            exact absurd hr (by simp)

/-! ### Claim C6: column resolution contract and failure safety -/

/-- C6: `find_column_indices` returns, for every requested name, the
0-based position of a header cell matching it case-insensitively; it
returns an error exactly when some requested name is absent from the
header; and when column resolution fails, `process_gtfs_file` returns
the error without creating a temp file (no file-system operation at
all), leaving the original untouched. -/
theorem C6_column_resolution :
    (∀ headers cols mp, find_column_indices headers cols = .ok mp →
      ∀ n ∈ cols, ∃ i, mp.lookup (strLower n) = some i ∧
        ∃ h : i < headers.length, headerKey (headers.get ⟨i, h⟩) = strLower n) ∧
    (∀ headers cols, (∃ e, find_column_indices headers cols = .err e) ↔
      ∃ n ∈ cols, ∀ m ∈ headers, headerKey m ≠ strLower n) ∧
    (∀ fn latN lonN c e wOk, find_column_indices (c.headD []) [latN, lonN] = .err e →
      process_gtfs_file fn latN lonN (some c) wOk =
        ⟨.err (.columnNotFound e), [], some c, none, 0, []⟩) := by
  refine ⟨?_, ?_, ?_⟩
  · intro headers cols mp hok n hn
    obtain ⟨i, hlook, hhm⟩ := collectIndices_ok_lookup _ cols mp hok n hn
    obtain ⟨hlt, hkey⟩ := headerMap_some_spec headers (strLower n) i hhm
    exact ⟨i, hlook, hlt, hkey⟩
  · intro headers cols
    rw [find_column_indices] at *
    rw [collectIndices_err_iff]
    constructor
    · rintro ⟨n, hn, hnone⟩
      exact ⟨n, hn, (headerMap_none_iff headers (strLower n)).mp hnone⟩
    · rintro ⟨n, hn, hnomatch⟩
      exact ⟨n, hn, (headerMap_none_iff headers (strLower n)).mpr hnomatch⟩
  · intro fn latN lonN c e wOk hf
    simp only [process_gtfs_file, hf]

/-- Witness for C6: a successful resolution (case-insensitive, position
1 and 3 of a 4-column header), an error for an absent column, and the
no-temp-file error result of processing a file whose header lacks the
required columns. -/
theorem C6_column_resolution_witness :
    (∃ i, List.lookup (strLower "Stop_Lat")
        [("stop_lat", (1 : ℕ)), ("stop_lon", 3)] = some i ∧
      ∃ h : i < (["stop_id", "stop_lat", "x", "stop_lon"] : List String).length,
        headerKey ((["stop_id", "stop_lat", "x", "stop_lon"] : List String).get ⟨i, h⟩) =
          strLower "Stop_Lat") ∧
    (∃ e, find_column_indices ["id", "name"] ["stop_lat"] = .err e) ∧
    process_gtfs_file "stops.txt" "stop_lat" "stop_lon"
        (some [["id", "name"], ["1", "A"]]) allOk =
      ⟨.err (.columnNotFound "Required column 'stop_lat' not found in header."),
       [], some [["id", "name"], ["1", "A"]], none, 0, []⟩ := by
  refine ⟨?_, ?_, ?_⟩
  · exact C6_column_resolution.1 ["stop_id", "stop_lat", "x", "stop_lon"]
      ["Stop_Lat", "stop_lon"] [("stop_lat", 1), ("stop_lon", 3)] (by decide)
      "Stop_Lat" (by decide)
  · exact (C6_column_resolution.2.1 ["id", "name"] ["stop_lat"]).mpr
      ⟨"stop_lat", by decide, by decide⟩
  · exact C6_column_resolution.2.2 "stops.txt" "stop_lat" "stop_lon"
      [["id", "name"], ["1", "A"]] _ allOk (by decide)

/-! ### Claim C10: trimmed matching and last-occurrence resolution -/

/-- C10: `find_column_indices` matches a requested column name against
header cells with surrounding whitespace trimmed and case folded, and
when several header cells match, the resolved index is that of the LAST
matching occurrence (Rust `HashMap::insert` overwrites on collect). -/
theorem C10_trim_last_occurrence (pre : List String) (n : String) (post : List String)
    (c : String) (h1 : headerKey n = strLower c)
    (h2 : ∀ m ∈ post, headerKey m ≠ strLower c) :
    find_column_indices (pre ++ n :: post) [c] = .ok [(strLower c, pre.length)] := by
  have hmap : headerMap (pre ++ n :: post) (strLower c) = some pre.length := by
    rw [headerMap, headerMapFrom_append]
    have hpost : headerMapFrom (pre.length + 1) post (strLower c) = none :=
      headerMapFrom_none_of_no_match _ post _ h2
    simp only [headerMapFrom, hpost, Nat.zero_add]
    simp [h1]
  simp only [find_column_indices, collectIndices, hmap]

/-- Witness for C10: the header cell `" Stop_Lat "` (with spaces, mixed
case) at position 2 matches the request `"STOP_LAT"`, and beats the
earlier match at position 0. -/
theorem C10_trim_last_occurrence_witness :
    find_column_indices ["stop_lat", "x", " Stop_Lat ", "y"] ["STOP_LAT"] =
      .ok [(strLower "STOP_LAT", 2)] :=
  C10_trim_last_occurrence ["stop_lat", "x"] " Stop_Lat " ["y"] "STOP_LAT"
    (by decide) (by decide)

/-! ### Lemmas about the streaming transform -/

theorem transform_fields_length (lat lon : ℕ) (r : List String) :
    ∀ j, (transform_fields lat lon j r).length = r.length := by
  induction r with
  | nil => intro j; rfl
  | cons f fs ih => intro j; simp [transform_fields, ih]

theorem transform_row_length (lat lon : ℕ) (r : List String) :
    (transform_row lat lon r).length = r.length :=
  transform_fields_length lat lon r 0

theorem transform_fields_get (lat lon : ℕ) (r : List String) :
    ∀ (j i : ℕ) (h : i < r.length) (h' : i < (transform_fields lat lon j r).length),
      (transform_fields lat lon j r).get ⟨i, h'⟩ =
        if j + i = lat ∨ j + i = lon then format_coordinate (r.get ⟨i, h⟩)
        else r.get ⟨i, h⟩ := by
  induction r with
  | nil => intro j i h _; exact absurd h (by simp)
  | cons f fs ih =>
    intro j i h h'
    cases i with
    | zero => simp [transform_fields, List.get]
    | succ i' =>
      have hi : i' < fs.length := by simpa using Nat.lt_of_succ_lt_succ h
      have hi' : i' < (transform_fields lat lon (j + 1) fs).length := by
        rw [transform_fields_length]; exact hi
      have hstep : (transform_fields lat lon j (f :: fs)).get ⟨i' + 1, h'⟩ =
          (transform_fields lat lon (j + 1) fs).get ⟨i', hi'⟩ := rfl
      rw [hstep, ih (j + 1) i' hi hi']
      have harith : j + 1 + i' = j + (i' + 1) := by omega
      rw [harith]
      rfl

theorem transform_row_get (lat lon : ℕ) (r : List String) (i : ℕ)
    (h : i < r.length) (h' : i < (transform_row lat lon r).length)
    (hlat : i ≠ lat) (hlon : i ≠ lon) :
    (transform_row lat lon r).get ⟨i, h'⟩ = r.get ⟨i, h⟩ := by
  have h'' : i < (transform_fields lat lon 0 r).length := h'
  have hrw : (transform_row lat lon r).get ⟨i, h'⟩ =
      (transform_fields lat lon 0 r).get ⟨i, h''⟩ := rfl
  rw [hrw, transform_fields_get lat lon r 0 i h h'']
  simp [hlat, hlon]

theorem rowLoop_complete (headerLen lat lon : ℕ) (rows : List (List String)) (st : LoopSt)
    (hlen : ∀ r ∈ rows, r.length = headerLen)
    (hlat : lat < headerLen) (hlon : lon < headerLen) :
    rowLoop allOk headerLen lat lon rows st =
      .ok ⟨st.written ++ rows.map (transform_row lat lon),
           st.opIdx + rows.length, st.count + rows.length, st.warns⟩ := by
  induction rows generalizing st with
  | nil => simp [rowLoop]
  | cons r rs ih =>
    have hr : r.length = headerLen := hlen r (List.mem_cons_self r rs)
    have hmal : malformed lat lon r = false := by
      simp only [malformed, hr]
      simp
      omega
    simp only [rowLoop, hr, hmal]
    rw [if_neg (by omega)]
    simp only [Bool.false_eq_true, if_false, allOk, if_true]
    rw [ih _ (fun r' hr' => hlen r' (List.mem_cons_of_mem r hr'))]
    have h1 : st.opIdx + 1 + rs.length = st.opIdx + (rs.length + 1) := by omega
    have h2 : st.count + 1 + rs.length = st.count + (rs.length + 1) := by omega
    simp only [List.append_assoc, List.singleton_append, h1, h2, List.length_cons,
      List.map_cons]

/-- Full characterization of a successful `process_gtfs_file` run with
no I/O failures on a file whose rows all have the header's field
count. -/
theorem process_success (fn latN lonN : String) (header : List String)
    (rows : List (List String)) (mp : List (String × ℕ)) (lat lon : ℕ)
    (hf : find_column_indices header [latN, lonN] = .ok mp)
    (hlat : mp.lookup (strLower latN) = some lat)
    (hlon : mp.lookup (strLower lonN) = some lon)
    (hlen : ∀ r ∈ rows, r.length = header.length) :
    process_gtfs_file fn latN lonN (some (header :: rows)) allOk =
      ⟨.ok,
       .createTemp :: (header :: rows.map (transform_row lat lon)).map .writeRec
         ++ [.flushTemp, .renameTempToOrig],
       some (header :: rows.map (transform_row lat lon)), none, rows.length, []⟩ := by
  have hlat_lt : lat < header.length := by
    obtain ⟨i, hlook, hhm⟩ := collectIndices_ok_lookup _ _ mp hf latN (by simp)
    rw [hlat] at hlook
    cases hlook
    exact (headerMap_some_spec header _ _ hhm).1
  have hlon_lt : lon < header.length := by
    obtain ⟨i, hlook, hhm⟩ := collectIndices_ok_lookup _ _ mp hf lonN (by simp)
    rw [hlon] at hlook
    cases hlook
    exact (headerMap_some_spec header _ _ hhm).1
  simp only [process_gtfs_file, List.headD, List.tail_cons, hf, hlat, hlon, Option.getD]
  rw [rowLoop_complete header.length lat lon rows ⟨[header], 1, 0, []⟩ hlen hlat_lt hlon_lt]
  simp only [allOk, if_true, List.singleton_append, Nat.zero_add]

/-! ### Claim C2: frame effect of the row transform -/

/-- C2: in a successful run, the output file is the unmodified header
followed by the transformed rows in order; each transformed row has the
same field count as its input row, and every field at a position other
than the two resolved coordinate positions is identical to the
corresponding input field. -/
theorem C2_frame_effect (fn latN lonN : String) (header : List String)
    (rows : List (List String)) (mp : List (String × ℕ)) (lat lon : ℕ)
    (hf : find_column_indices header [latN, lonN] = .ok mp)
    (hlat : mp.lookup (strLower latN) = some lat)
    (hlon : mp.lookup (strLower lonN) = some lon)
    (hlen : ∀ r ∈ rows, r.length = header.length) :
    (process_gtfs_file fn latN lonN (some (header :: rows)) allOk).origAfter =
      some (header :: rows.map (transform_row lat lon)) ∧
    (∀ r, (transform_row lat lon r).length = r.length) ∧
    (∀ (r : List String) (i : ℕ) (h : i < r.length)
      (h' : i < (transform_row lat lon r).length), i ≠ lat → i ≠ lon →
      (transform_row lat lon r).get ⟨i, h'⟩ = r.get ⟨i, h⟩) := by
  refine ⟨?_, transform_row_length lat lon, ?_⟩
  · rw [process_success fn latN lonN header rows mp lat lon hf hlat hlon hlen]
  · intro r i h h' hl hl'
    exact transform_row_get lat lon r i h h' hl hl'

/-- Witness for C2 on the spec's example file: header
`stop_id,stop_name,stop_lat,stop_lon` and row `1,A,45.1,-73.5`. -/
theorem C2_frame_effect_witness :
    (process_gtfs_file "stops.txt" "stop_lat" "stop_lon"
      (some [["stop_id", "stop_name", "stop_lat", "stop_lon"],
             ["1", "A", "45.1", "-73.5"]]) allOk).origAfter =
      some (["stop_id", "stop_name", "stop_lat", "stop_lon"] ::
        [["1", "A", "45.1", "-73.5"]].map (transform_row 2 3)) :=
  (C2_frame_effect "stops.txt" "stop_lat" "stop_lon"
    ["stop_id", "stop_name", "stop_lat", "stop_lon"]
    [["1", "A", "45.1", "-73.5"]] [("stop_lat", 2), ("stop_lon", 3)] 2 3
    (by decide) (by decide) (by decide) (by decide)).1

/-! ### Claim C3: malformed rows abort the file (code bug) -/

/-- C3 as specified is violated by the code: the csv reader is built
with the crate's default `flexible(false)` (main.rs line 116), so
`read_record` returns an `UnequalLengths` error for any row whose field
count differs from the header's, and the `?` at line 177 aborts the
whole file.  The explicit skip-with-warning branch for short rows
(main.rs lines 179-188) is unreachable, because the resolved column
indices are always smaller than the header length.  At the failing
input below (a 3-field row under a 4-field header followed by a
well-formed row) processing errors out: no diagnostic is recorded, the
processed-row count stays 0, the subsequent well-formed row is not
written, and the original file is left in place together with the stray
temp file. -/
theorem C3_malformed_row_aborts :
    process_gtfs_file "stops.txt" "stop_lat" "stop_lon"
      (some [["stop_id", "stop_name", "stop_lat", "stop_lon"],
             ["1", "A", "45.1"],
             ["2", "B", "46.2", "-72.1"]]) allOk =
      ⟨.err (.readUnequal 4 3),
       [.createTemp, .writeRec ["stop_id", "stop_name", "stop_lat", "stop_lon"]],
       some [["stop_id", "stop_name", "stop_lat", "stop_lon"],
             ["1", "A", "45.1"], ["2", "B", "46.2", "-72.1"]],
       some [["stop_id", "stop_name", "stop_lat", "stop_lon"]], 0, []⟩ := by
  decide

/-! ### Claim C5: rename last, write-failure safety -/

/-- C5: the rename of the temp file over the original is the last
file-system operation and happens only after every transformed row has
been written and the writer flushed (on success the trace is exactly
the temp-file creation, one write per output record, the flush, and
then the rename); if any write (header, row, or flush) fails, the
function returns an error, the original file is untouched, the temp
file is left in place, and no rename is performed. -/
theorem C5_atomic_replace (fn latN lonN : String)
    (input : Option (List (List String))) (wOk : ℕ → Bool) :
    ((process_gtfs_file fn latN lonN input wOk).result = .ok →
      ∀ c, input = some c →
      ∃ recs, (process_gtfs_file fn latN lonN input wOk).origAfter = some recs ∧
        (process_gtfs_file fn latN lonN input wOk).trace =
          .createTemp :: recs.map .writeRec ++ [.flushTemp, .renameTempToOrig]) ∧
    (∀ i, ((process_gtfs_file fn latN lonN input wOk).result = .err (.ioWrite i) ∨
           (process_gtfs_file fn latN lonN input wOk).result = .err (.ioFlush i)) →
      (process_gtfs_file fn latN lonN input wOk).origAfter = input ∧
      ((process_gtfs_file fn latN lonN input wOk).tempAfter).isSome = true ∧
      .renameTempToOrig ∉ (process_gtfs_file fn latN lonN input wOk).trace) ∧
    (.renameTempToOrig ∈ (process_gtfs_file fn latN lonN input wOk).trace →
      (process_gtfs_file fn latN lonN input wOk).result = .ok) := by
  cases input with
  | none =>
    refine ⟨fun _ c hc => absurd hc (by simp), fun i hi => ?_, fun hr => ?_⟩
    · rcases hi with hi | hi <;> simp [process_gtfs_file] at hi
    · simp [process_gtfs_file] at hr
  | some c =>
    cases c with
    | nil =>
      have hred : process_gtfs_file fn latN lonN (some []) wOk =
          ⟨.err (.columnNotFound ("Required column '" ++ latN ++ "' not found in header.")),
           [], some [], none, 0, []⟩ := rfl
      refine ⟨fun hok => ?_, fun i hi => ?_, fun hr => ?_⟩
      · rw [hred] at hok
        exact absurd hok (by simp)
      · rcases hi with hi | hi <;> rw [hred] at hi <;> exact absurd hi (by simp)
      · rw [hred] at hr
        exact absurd hr (by simp)
    | cons hd tl =>
      cases hf : find_column_indices hd [latN, lonN] with
      | err e =>
        have hred : process_gtfs_file fn latN lonN (some (hd :: tl)) wOk =
            ⟨.err (.columnNotFound e), [], some (hd :: tl), none, 0, []⟩ := by
          simp only [process_gtfs_file, List.headD, hf]
        refine ⟨fun hok => ?_, fun i hi => ?_, fun hr => ?_⟩
        · rw [hred] at hok
          exact absurd hok (by simp)
        · rcases hi with hi | hi <;> rw [hred] at hi <;> exact absurd hi (by simp)
        · rw [hred] at hr
          exact absurd hr (by simp)
      | ok mp =>
        cases h0 : wOk 0 with
        | false =>
          have hred : process_gtfs_file fn latN lonN (some (hd :: tl)) wOk =
              ⟨.err (.ioWrite 0), [.createTemp], some (hd :: tl), some [], 0, []⟩ := by
            simp only [process_gtfs_file, List.headD, hf, h0]
            rfl
          refine ⟨fun hok => ?_, fun i hi => ?_, fun hr => ?_⟩
          · rw [hred] at hok
            exact absurd hok (by simp)
          · rw [hred]
            refine ⟨rfl, rfl, by simp⟩
          · rw [hred] at hr
            exact absurd hr (by simp)
        | true =>
          cases hl : rowLoop wOk hd.length ((mp.lookup (strLower latN)).getD 0)
              ((mp.lookup (strLower lonN)).getD 0) tl ⟨[hd], 1, 0, []⟩ with
          | ok st =>
            cases hfl : wOk st.opIdx with
            | true =>
              have hred : process_gtfs_file fn latN lonN (some (hd :: tl)) wOk =
                  ⟨.ok, .createTemp :: st.written.map .writeRec
                      ++ [.flushTemp, .renameTempToOrig],
                   some st.written, none, st.count, st.warns⟩ := by
                simp only [process_gtfs_file, List.headD, List.tail_cons, hf, h0, if_true, hl, hfl]
              refine ⟨fun _ c' hc' => ?_, fun i hi => ?_, fun _ => ?_⟩
              · exact ⟨st.written, by rw [hred], by rw [hred]⟩
              · rcases hi with hi | hi <;> rw [hred] at hi <;> exact absurd hi (by simp)
              · rw [hred]
            | false =>
              have hred : process_gtfs_file fn latN lonN (some (hd :: tl)) wOk =
                  ⟨.err (.ioFlush st.opIdx), .createTemp :: st.written.map .writeRec,
                   some (hd :: tl), some st.written, st.count, st.warns⟩ := by
                simp only [process_gtfs_file, List.headD, List.tail_cons, hf, h0, if_true, hl, hfl]
                rfl
              refine ⟨fun hok => ?_, fun i hi => ?_, fun hr => ?_⟩
              · rw [hred] at hok
                exact absurd hok (by simp)
              · rw [hred]
                refine ⟨rfl, rfl, by simp [List.mem_map]⟩
              · rw [hred] at hr
                simp [List.mem_map] at hr
          | writeFail st =>
            have hred : process_gtfs_file fn latN lonN (some (hd :: tl)) wOk =
                ⟨.err (.ioWrite st.opIdx), .createTemp :: st.written.map .writeRec,
                 some (hd :: tl), some st.written, st.count, st.warns⟩ := by
              simp only [process_gtfs_file, List.headD, List.tail_cons, hf, h0, if_true, hl]
            refine ⟨fun hok => ?_, fun i hi => ?_, fun hr => ?_⟩
            · rw [hred] at hok
              exact absurd hok (by simp)
            · rw [hred]
              refine ⟨rfl, rfl, by simp [List.mem_map]⟩
            · rw [hred] at hr
              simp [List.mem_map] at hr
          | readFail st got =>
            have hred : process_gtfs_file fn latN lonN (some (hd :: tl)) wOk =
                ⟨.err (.readUnequal hd.length got), .createTemp :: st.written.map .writeRec,
                 some (hd :: tl), some st.written, st.count, st.warns⟩ := by
              simp only [process_gtfs_file, List.headD, List.tail_cons, hf, h0, if_true, hl]
            refine ⟨fun hok => ?_, fun i hi => ?_, fun hr => ?_⟩
            · rw [hred] at hok
              exact absurd hok (by simp)
            · rcases hi with hi | hi <;> rw [hred] at hi <;> exact absurd hi (by simp)
            · rw [hred] at hr
              simp [List.mem_map] at hr

/-- Witness for C5: a 1-row file where the row write (operation 1)
fails: the run errors, the original is untouched, the temp file (with
the header written) is left in place, and no rename appears in the
trace. -/
theorem C5_atomic_replace_witness :
    (process_gtfs_file "stops.txt" "stop_lat" "stop_lon"
      (some [["stop_lat", "stop_lon"], ["45.1", "-73.5"]])
      (fun i => i != 1)).origAfter = some [["stop_lat", "stop_lon"], ["45.1", "-73.5"]] ∧
    ((process_gtfs_file "stops.txt" "stop_lat" "stop_lon"
      (some [["stop_lat", "stop_lon"], ["45.1", "-73.5"]])
      (fun i => i != 1)).tempAfter).isSome = true ∧
    .renameTempToOrig ∉ (process_gtfs_file "stops.txt" "stop_lat" "stop_lon"
      (some [["stop_lat", "stop_lon"], ["45.1", "-73.5"]])
      (fun i => i != 1)).trace :=
  (C5_atomic_replace "stops.txt" "stop_lat" "stop_lon"
    (some [["stop_lat", "stop_lon"], ["45.1", "-73.5"]]) (fun i => i != 1)).2.1 1
    (Or.inl (by decide))

/-! ### Claim C1: counterexample at a non-finite parse -/

/-- C1 counterexample: the string `"inf"` parses as a floating-point
number (Rust `"inf".parse::<f64>()` succeeds), but
`format_coordinate "inf"` is `"inf"`, which does not have exactly 8
digits after a decimal point, refuting the claim for non-finite parses.
-/
theorem C1_counterexample :
    (parse_f64 (trimChars ("inf" : String).data)).isSome = true ∧
    hasExactly8FracDigits (format_coordinate "inf") = false := by
  decide

/-! ### Rational-level rounding: specification layer for `rheFrac` -/

theorem rheQ_sub_abs_le (q : ℚ) : |(rheQ q : ℚ) - q| ≤ 1/2 := by
  have h0 : (⌊q⌋ : ℚ) ≤ q := Int.floor_le q
  have h1 : q < ⌊q⌋ + 1 := Int.lt_floor_add_one q
  unfold rheQ
  split_ifs with ha hb hc <;> push_cast <;> rw [abs_le] <;> constructor <;> linarith

theorem rheQ_eq_of_abs_lt (q : ℚ) (k : ℤ) (h : |q - (k : ℚ)| < 1/2) : rheQ q = k := by
  have h1 := rheQ_sub_abs_le q
  have h2 : |(rheQ q : ℚ) - (k : ℚ)| < 1 := by
    calc |(rheQ q : ℚ) - (k : ℚ)|
        ≤ |(rheQ q : ℚ) - q| + |q - (k : ℚ)| := abs_sub_le _ _ _
      _ < 1 := by linarith
  have h3 : |((rheQ q - k : ℤ) : ℚ)| < 1 := by push_cast; exact h2
  have h4 : ((|rheQ q - k| : ℤ) : ℚ) < 1 := by rw [Int.cast_abs]; exact h3
  have h5 : |rheQ q - k| < 1 := by exact_mod_cast h4
  rw [abs_lt] at h5
  omega

theorem rheQ_intCast (k : ℤ) : rheQ (k : ℚ) = k := by
  refine rheQ_eq_of_abs_lt _ _ ?_
  simp

theorem rheQ_nonneg (q : ℚ) (h : 0 ≤ q) : 0 ≤ rheQ q := by
  have h0 : 0 ≤ ⌊q⌋ := Int.floor_nonneg.mpr h
  unfold rheQ
  split_ifs <;> omega

/-- `rheFrac` computes `rheQ` of the fraction's value. -/
theorem rheFrac_toRat (x : Frac) (h : 0 < x.den) : (rheFrac x : ℤ) = rheQ x.toRat := by
  have hden : (0 : ℚ) < (x.den : ℚ) := by exact_mod_cast h
  have hmod := Nat.div_add_mod x.num x.den
  have hmodlt : x.num % x.den < x.den := Nat.mod_lt _ h
  have hmodQ : (x.den : ℚ) * ((x.num / x.den : ℕ) : ℚ) + ((x.num % x.den : ℕ) : ℚ)
      = (x.num : ℚ) := by exact_mod_cast hmod
  have hfloor : ⌊x.toRat⌋ = ((x.num / x.den : ℕ) : ℤ) := by
    rw [Int.floor_eq_iff]
    constructor
    · show (((x.num / x.den : ℕ) : ℤ) : ℚ) ≤ x.toRat
      rw [Frac.toRat, le_div_iff₀ hden, Int.cast_natCast]
      exact_mod_cast Nat.div_mul_le_self x.num x.den
    · show x.toRat < (((x.num / x.den : ℕ) : ℤ) : ℚ) + 1
      rw [Frac.toRat, div_lt_iff₀ hden, Int.cast_natCast]
      have hlt : x.num < (x.num / x.den + 1) * x.den := by
        calc x.num = x.den * (x.num / x.den) + x.num % x.den := (Nat.div_add_mod _ _).symm
          _ < x.den * (x.num / x.den) + x.den := by omega
          _ = (x.num / x.den + 1) * x.den := by ring
      exact_mod_cast hlt
  have hfrac : x.toRat - (⌊x.toRat⌋ : ℚ) = ((x.num % x.den : ℕ) : ℚ) / (x.den : ℚ) := by
    rw [hfloor, Int.cast_natCast, eq_div_iff (ne_of_gt hden), Frac.toRat, sub_mul,
      div_mul_cancel₀ _ (ne_of_gt hden)]
    linarith
  have e1 : (x.toRat - (⌊x.toRat⌋ : ℚ) < 1/2) ↔ 2 * (x.num % x.den) < x.den := by
    rw [hfrac, div_lt_iff₀ hden]
    constructor
    · intro hh
      have h2 : (2 * ((x.num % x.den : ℕ) : ℚ)) < (x.den : ℚ) := by linarith
      exact_mod_cast h2
    · intro hh
      have h2 : (2 * ((x.num % x.den : ℕ) : ℚ)) < (x.den : ℚ) := by exact_mod_cast hh
      linarith
  have e2 : ((1:ℚ)/2 < x.toRat - (⌊x.toRat⌋ : ℚ)) ↔ x.den < 2 * (x.num % x.den) := by
    rw [hfrac, lt_div_iff₀ hden]
    constructor
    · intro hh
      have h2 : (x.den : ℚ) < 2 * ((x.num % x.den : ℕ) : ℚ) := by linarith
      exact_mod_cast h2
    · intro hh
      have h2 : (x.den : ℚ) < 2 * ((x.num % x.den : ℕ) : ℚ) := by exact_mod_cast hh
      linarith
  have e3 : (2 ∣ ⌊x.toRat⌋) ↔ x.num / x.den % 2 = 0 := by
    rw [hfloor]
    omega
  simp only [rheFrac, rheQ, e1, e2, e3]
  rw [hfloor]
  split_ifs <;> push_cast <;> ring

/-! ### Values of the fraction operations -/

theorem pow2Frac_den_pos (c : ℤ) : 0 < (pow2Frac c).den := by
  unfold pow2Frac
  split_ifs <;> simp [Nat.pos_pow_of_pos]

theorem valFrac_den_pos (m : ℕ) (e : ℤ) : 0 < (valFrac m e).den := by
  unfold valFrac
  split_ifs <;> simp [Nat.pos_pow_of_pos]

theorem decFrac_den_pos (mant : ℕ) (e10 : ℤ) : 0 < (decFrac mant e10).den := by
  unfold decFrac
  split_ifs <;> simp [Nat.pos_pow_of_pos]

theorem fracMulNat_den_pos (x : Frac) (k : ℕ) (h : 0 < x.den) : 0 < (fracMulNat x k).den := h

theorem fracDivPow2_den_pos (x : Frac) (c : ℤ) (h : 0 < x.den) : 0 < (fracDivPow2 x c).den := by
  unfold fracDivPow2
  split_ifs <;> simp [h, Nat.pos_pow_of_pos]

theorem zpow_toNat_cast (c : ℤ) (h : 0 ≤ c) : (((2 : ℕ) ^ c.toNat : ℕ) : ℚ) = (2 : ℚ) ^ c := by
  push_cast
  rw [← zpow_natCast]
  congr 1
  omega

theorem zpow_toNat_cast_ten (c : ℤ) (h : 0 ≤ c) :
    (((10 : ℕ) ^ c.toNat : ℕ) : ℚ) = (10 : ℚ) ^ c := by
  push_cast
  rw [← zpow_natCast]
  congr 1
  omega

theorem pow2Frac_toRat (c : ℤ) : (pow2Frac c).toRat = (2 : ℚ) ^ c := by
  unfold pow2Frac Frac.toRat
  split_ifs with hc
  · show ((2 ^ c.toNat : ℕ) : ℚ) / ((1 : ℕ) : ℚ) = (2 : ℚ) ^ c
    rw [Nat.cast_one, div_one]
    push_cast
    rw [← zpow_natCast (2 : ℚ) c.toNat]
    congr 1
    omega
  · show ((1 : ℕ) : ℚ) / ((2 ^ (-c).toNat : ℕ) : ℚ) = (2 : ℚ) ^ c
    rw [Nat.cast_one, one_div]
    push_cast
    rw [← zpow_natCast (2 : ℚ) (-c).toNat, ← zpow_neg]
    congr 1
    omega

theorem valFrac_toRat (m : ℕ) (e : ℤ) : (valFrac m e).toRat = fval m e := by
  unfold valFrac Frac.toRat fval
  split_ifs with he
  · show ((m * 2 ^ e.toNat : ℕ) : ℚ) / ((1 : ℕ) : ℚ) = (m : ℚ) * 2 ^ e
    rw [Nat.cast_one, div_one]
    push_cast
    rw [← zpow_natCast (2 : ℚ) e.toNat]
    congr 2
    omega
  · show ((m : ℕ) : ℚ) / ((2 ^ (-e).toNat : ℕ) : ℚ) = (m : ℚ) * 2 ^ e
    push_cast
    rw [← zpow_natCast (2 : ℚ) (-e).toNat, div_eq_mul_inv, ← zpow_neg]
    congr 2
    omega

theorem decFrac_toRat (mant : ℕ) (e10 : ℤ) : (decFrac mant e10).toRat = (mant : ℚ) * 10 ^ e10 := by
  unfold decFrac Frac.toRat
  split_ifs with he
  · show ((mant * 10 ^ e10.toNat : ℕ) : ℚ) / ((1 : ℕ) : ℚ) = (mant : ℚ) * 10 ^ e10
    rw [Nat.cast_one, div_one]
    push_cast
    rw [← zpow_natCast (10 : ℚ) e10.toNat]
    congr 2
    omega
  · show ((mant : ℕ) : ℚ) / ((10 ^ (-e10).toNat : ℕ) : ℚ) = (mant : ℚ) * 10 ^ e10
    push_cast
    rw [← zpow_natCast (10 : ℚ) (-e10).toNat, div_eq_mul_inv, ← zpow_neg]
    congr 2
    omega

theorem fracMulNat_toRat (x : Frac) (k : ℕ) : (fracMulNat x k).toRat = x.toRat * (k : ℚ) := by
  unfold fracMulNat Frac.toRat
  show ((x.num * k : ℕ) : ℚ) / (x.den : ℚ) = (x.num : ℚ) / (x.den : ℚ) * (k : ℚ)
  push_cast
  ring

theorem fracDivPow2_toRat (x : Frac) (c : ℤ) :
    (fracDivPow2 x c).toRat = x.toRat / (2 : ℚ) ^ c := by
  unfold fracDivPow2 Frac.toRat
  split_ifs with hc
  · show (x.num : ℚ) / ((x.den * 2 ^ c.toNat : ℕ) : ℚ) = (x.num : ℚ) / (x.den : ℚ) / 2 ^ c
    rw [div_div]
    push_cast
    rw [← zpow_natCast (2 : ℚ) c.toNat, Int.toNat_of_nonneg hc]
  · show ((x.num * 2 ^ (-c).toNat : ℕ) : ℚ) / (x.den : ℚ) = (x.num : ℚ) / (x.den : ℚ) / 2 ^ c
    have h1 : (2 : ℚ) ^ c = ((2 : ℚ) ^ (-c).toNat)⁻¹ := by
      rw [← zpow_natCast (2 : ℚ) (-c).toNat, ← zpow_neg]
      congr 1
      omega
    rw [h1, div_inv_eq_mul]
    push_cast
    ring

theorem fracLt_iff (x y : Frac) (hx : 0 < x.den) (hy : 0 < y.den) :
    fracLt x y = true ↔ x.toRat < y.toRat := by
  have hxq : (0 : ℚ) < (x.den : ℚ) := by exact_mod_cast hx
  have hyq : (0 : ℚ) < (y.den : ℚ) := by exact_mod_cast hy
  unfold fracLt Frac.toRat
  rw [decide_eq_true_eq, div_lt_div_iff hxq hyq]
  constructor
  · intro hh
    exact_mod_cast hh
  · intro hh
    exact_mod_cast hh

theorem fracLe_iff (x y : Frac) (hx : 0 < x.den) (hy : 0 < y.den) :
    fracLe x y = true ↔ x.toRat ≤ y.toRat := by
  have hxq : (0 : ℚ) < (x.den : ℚ) := by exact_mod_cast hx
  have hyq : (0 : ℚ) < (y.den : ℚ) := by exact_mod_cast hy
  unfold fracLe Frac.toRat
  rw [decide_eq_true_eq, div_le_div_iff hxq hyq]
  constructor
  · intro hh
    exact_mod_cast hh
  · intro hh
    exact_mod_cast hh

/-! ### Correctness of the fuelled binary logarithm -/

theorem log2F_spec : ∀ f n, 1 ≤ n → n ≤ f → 2 ^ log2F f n ≤ n ∧ n < 2 ^ (log2F f n + 1) := by
  intro f
  induction f with
  | zero => intro n h1 h2; omega
  | succ f ih =>
    intro n h1 h2
    by_cases hn : 2 ≤ n
    · have hdiv : n / 2 < n := Nat.div_lt_self (by omega) (by omega)
      have hrec := ih (n / 2) (by omega) (by omega)
      simp only [log2F, if_pos hn]
      set L := log2F f (n / 2) with hL
      have hp1 : 2 ^ (L + 1) = 2 * 2 ^ L := by ring
      have hp2 : 2 ^ (L + 1 + 1) = 4 * 2 ^ L := by ring
      have hmod := Nat.div_add_mod n 2
      constructor
      · calc 2 ^ (L + 1) = 2 * 2 ^ L := hp1
          _ ≤ 2 * (n / 2) := by omega
          _ ≤ n := by omega
      · have : n < 2 * (n / 2) + 2 := by omega
        calc n < 2 * (n / 2) + 2 := this
          _ ≤ 2 * (2 ^ (L + 1) - 1) + 2 := by
            have := hrec.2
            omega
          _ ≤ 2 ^ (L + 1 + 1) := by
            have h3 : 1 ≤ 2 ^ (L + 1) := Nat.one_le_two_pow
            omega
    · simp only [log2F, if_neg hn]
      omega

theorem natLog2_spec (n : ℕ) (h : 1 ≤ n) : 2 ^ natLog2 n ≤ n ∧ n < 2 ^ (natLog2 n + 1) :=
  log2F_spec n n h le_rfl

/-! ### Correctness of the fraction binade computation -/

theorem fracLog2_spec (x : Frac) (hnum : 0 < x.num) (hden : 0 < x.den) :
    (2:ℚ) ^ fracLog2 x ≤ x.toRat ∧ x.toRat < (2:ℚ) ^ (fracLog2 x + 1) := by
  unfold fracLog2
  set la := natLog2 x.num with hla
  set lb := natLog2 x.den with hlb
  set c : ℤ := (la : ℤ) - (lb : ℤ) with hc
  obtain ⟨ha1, ha2⟩ := natLog2_spec x.num hnum
  obtain ⟨hb1, hb2⟩ := natLog2_spec x.den hden
  have hdenQ : (0:ℚ) < (x.den : ℚ) := by exact_mod_cast hden
  have hq : x.toRat = (x.num : ℚ) / (x.den : ℚ) := rfl
  have h1 : (2:ℚ) ^ (c - 1) < x.toRat := by
    rw [hq]
    have e : (2:ℚ) ^ (c - 1) = ((2 ^ la : ℕ) : ℚ) / ((2 ^ (lb + 1) : ℕ) : ℚ) := by
      push_cast
      rw [← zpow_natCast (2:ℚ) la, ← zpow_natCast (2:ℚ) (lb + 1), ← zpow_sub₀ two_ne_zero]
      congr 1
      push_cast
      ring
    rw [e]
    have s1 : ((2 ^ la : ℕ) : ℚ) / ((2 ^ (lb + 1) : ℕ) : ℚ) <
        ((2 ^ la : ℕ) : ℚ) / (x.den : ℚ) := by
      apply div_lt_div_of_pos_left
      · positivity
      · exact hdenQ
      · exact_mod_cast hb2
    have s2 : ((2 ^ la : ℕ) : ℚ) / (x.den : ℚ) ≤ (x.num : ℚ) / (x.den : ℚ) := by
      rw [div_le_div_right hdenQ]
      exact_mod_cast ha1
    linarith
  have h2 : x.toRat < (2:ℚ) ^ (c + 1) := by
    rw [hq]
    have e : (2:ℚ) ^ (c + 1) = ((2 ^ (la + 1) : ℕ) : ℚ) / ((2 ^ lb : ℕ) : ℚ) := by
      push_cast
      rw [← zpow_natCast (2:ℚ) (la + 1), ← zpow_natCast (2:ℚ) lb, ← zpow_sub₀ two_ne_zero]
      congr 1
      push_cast
      ring
    rw [e]
    have s1 : (x.num : ℚ) / (x.den : ℚ) < ((2 ^ (la + 1) : ℕ) : ℚ) / (x.den : ℚ) := by
      rw [div_lt_div_right hdenQ]
      exact_mod_cast ha2
    have s2 : ((2 ^ (la + 1) : ℕ) : ℚ) / (x.den : ℚ) ≤
        ((2 ^ (la + 1) : ℕ) : ℚ) / ((2 ^ lb : ℕ) : ℚ) := by
      rw [div_le_div_left (by positivity) hdenQ (by positivity)]
      exact_mod_cast hb1
    linarith
  by_cases hbr1 : fracLt x (pow2Frac c) = true
  · have hlt : x.toRat < (2:ℚ) ^ c := by
      have := (fracLt_iff x (pow2Frac c) hden (pow2Frac_den_pos c)).mp hbr1
      rwa [pow2Frac_toRat] at this
    rw [if_pos hbr1]
    constructor
    · exact le_of_lt h1
    · rwa [sub_add_cancel]
  · by_cases hbr2 : fracLt x (pow2Frac (c + 1)) = true
    · have hlt : x.toRat < (2:ℚ) ^ (c + 1) := by
        have := (fracLt_iff x (pow2Frac (c + 1)) hden (pow2Frac_den_pos (c + 1))).mp hbr2
        rwa [pow2Frac_toRat] at this
      have hge : (2:ℚ) ^ c ≤ x.toRat := by
        by_contra hcon
        exact hbr1 ((fracLt_iff x (pow2Frac c) hden (pow2Frac_den_pos c)).mpr
          (by rw [pow2Frac_toRat]; exact not_le.mp hcon))
      rw [if_neg hbr1, if_pos hbr2]
      exact ⟨hge, hlt⟩
    · exact absurd ((fracLt_iff x (pow2Frac (c + 1)) hden (pow2Frac_den_pos (c + 1))).mpr
        (by rw [pow2Frac_toRat]; exact h2)) hbr2

/-! ### Rounding to binary64: abbreviations and specification -/

theorem roundMag_def_eq (s : Bool) (x : Frac) :
    roundMag s x = if fracLe (pow2Frac 1024) (valFrac (rmM x) (rmE x))
      then F64.inf s else .finite s (rmM x) (rmE x) := rfl

theorem rmM_toRat (x : Frac) (hden : 0 < x.den) :
    ((rmM x : ℕ) : ℤ) = rheQ (x.toRat / (2:ℚ) ^ rmE x) := by
  unfold rmM
  rw [rheFrac_toRat _ (fracDivPow2_den_pos _ _ hden), fracDivPow2_toRat]

theorem roundMag_approx (x : Frac) (hden : 0 < x.den) :
    |fval (rmM x) (rmE x) - x.toRat| ≤ (2:ℚ) ^ (rmE x - 1) := by
  have hm := rmM_toRat x hden
  have hr := rheQ_sub_abs_le (x.toRat / (2:ℚ) ^ rmE x)
  have h2 : (0:ℚ) < (2:ℚ) ^ rmE x := zpow_pos (by norm_num) _
  have hcast : ((rmM x : ℕ) : ℚ) = ((rheQ (x.toRat / (2:ℚ) ^ rmE x) : ℤ) : ℚ) := by
    exact_mod_cast hm
  have hekey : fval (rmM x) (rmE x) - x.toRat =
      (((rmM x : ℕ) : ℚ) - x.toRat / (2:ℚ) ^ rmE x) * (2:ℚ) ^ rmE x := by
    rw [fval, sub_mul, div_mul_cancel₀ _ (ne_of_gt h2)]
  calc |fval (rmM x) (rmE x) - x.toRat|
      = |((rmM x : ℕ) : ℚ) - x.toRat / (2:ℚ) ^ rmE x| * (2:ℚ) ^ rmE x := by
        rw [hekey, abs_mul, abs_of_pos h2]
    _ ≤ (1/2) * (2:ℚ) ^ rmE x := by
        apply mul_le_mul_of_nonneg_right _ (le_of_lt h2)
        rw [hcast]
        exact hr
    _ = (2:ℚ) ^ (rmE x - 1) := by
        rw [zpow_sub₀ two_ne_zero]
        ring

theorem roundMag_eq_finite (s : Bool) (x : Frac)
    (hlt : fval (rmM x) (rmE x) < (2:ℚ) ^ (1024 : ℤ)) :
    roundMag s x = .finite s (rmM x) (rmE x) := by
  rw [roundMag_def_eq, if_neg]
  intro hcon
  have := (fracLe_iff _ _ (pow2Frac_den_pos 1024) (valFrac_den_pos _ _)).mp hcon
  rw [pow2Frac_toRat, valFrac_toRat] at this
  linarith

theorem roundMag_finite_spec (s s' : Bool) (x : Frac) (m : ℕ) (e : ℤ)
    (hnum : 0 < x.num) (hden : 0 < x.den)
    (h : roundMag s x = .finite s' m e) :
    s' = s ∧ m = rmM x ∧ e = rmE x ∧ wellFormed m e := by
  have hbranch : ¬ (fracLe (pow2Frac 1024) (valFrac (rmM x) (rmE x)) = true) := by
    intro hcon
    rw [roundMag_def_eq, if_pos hcon] at h
    exact absurd h (by simp)
  rw [roundMag_def_eq, if_neg hbranch] at h
  have hs : s' = s := by cases h; rfl
  have hm : m = rmM x := by cases h; rfl
  have he : e = rmE x := by cases h; rfl
  subst hs hm he
  have hnoov : fval (rmM x) (rmE x) < (2:ℚ) ^ (1024 : ℤ) := by
    by_contra hcon
    exact hbranch ((fracLe_iff _ _ (pow2Frac_den_pos 1024) (valFrac_den_pos _ _)).mpr
      (by rw [pow2Frac_toRat, valFrac_toRat]; linarith))
  have hqpos : (0:ℚ) < x.toRat := by
    rw [Frac.toRat]
    apply div_pos
    · exact_mod_cast hnum
    · exact_mod_cast hden
  obtain ⟨hlog1, hlog2⟩ := fracLog2_spec x hnum hden
  have hEpos : (0:ℚ) < (2:ℚ) ^ rmE x := zpow_pos (by norm_num) _
  have hmQ : ((rmM x : ℕ) : ℚ) = ((rheQ (x.toRat / (2:ℚ) ^ rmE x) : ℤ) : ℚ) := by
    exact_mod_cast rmM_toRat x hden
  have hrbound := rheQ_sub_abs_le (x.toRat / (2:ℚ) ^ rmE x)
  refine ⟨rfl, rfl, rfl, le_max_right _ _, ?_, hnoov, ?_⟩
  · -- m ≤ 2^53
    have hub : x.toRat / (2:ℚ) ^ rmE x < (2:ℚ) ^ (53 : ℕ) := by
      rw [div_lt_iff₀ hEpos]
      have hle : fracLog2 x - 52 ≤ rmE x := le_max_left _ _
      calc x.toRat < (2:ℚ) ^ (fracLog2 x + 1) := hlog2
        _ ≤ (2:ℚ) ^ ((53 : ℕ) + rmE x) := by
            apply zpow_le_zpow_right₀ (by norm_num)
            omega
        _ = (2:ℚ) ^ (53 : ℕ) * (2:ℚ) ^ rmE x := by
            rw [zpow_add₀ two_ne_zero, zpow_natCast]
    have habs := abs_le.mp hrbound
    have : ((rmM x : ℕ) : ℚ) < (2:ℚ) ^ (53 : ℕ) + 1/2 := by
      rw [hmQ]
      have := habs.2
      linarith
    have hfin : ((rmM x : ℕ) : ℚ) < ((2 ^ 53 + 1 : ℕ) : ℚ) := by
      push_cast
      linarith
    have : rmM x < 2 ^ 53 + 1 := by exact_mod_cast hfin
    omega
  · -- normality
    intro hesub
    have hEeq : rmE x = fracLog2 x - 52 := by
      rw [rmE] at *
      omega
    have hlb : (2:ℚ) ^ (52 : ℕ) ≤ x.toRat / (2:ℚ) ^ rmE x := by
      rw [le_div_iff₀ hEpos]
      calc (2:ℚ) ^ (52 : ℕ) * (2:ℚ) ^ rmE x = (2:ℚ) ^ ((52 : ℕ) + rmE x) := by
            rw [zpow_add₀ two_ne_zero, zpow_natCast]
        _ = (2:ℚ) ^ fracLog2 x := by
            rw [hEeq]
            congr 1
            omega
        _ ≤ x.toRat := hlog1
    have habs := abs_le.mp hrbound
    have h1 : ((2 ^ 52 : ℕ) : ℚ) - 1/2 ≤ ((rmM x : ℕ) : ℚ) := by
      rw [hmQ]
      push_cast
      have := habs.1
      push_cast at hlb
      linarith
    have h2 : ((2 ^ 52 - 1 : ℕ) : ℚ) < ((rmM x : ℕ) : ℚ) := by
      push_cast
      linarith
    have : 2 ^ 52 - 1 < rmM x := by exact_mod_cast h2
    omega

/-! ### The 8-digit decimal rounding of a finite value -/

theorem rnd8_toRat (m : ℕ) (e : ℤ) :
    ((rnd8 m e : ℕ) : ℤ) = rheQ (fval m e * (10:ℚ) ^ (8:ℕ)) := by
  unfold rnd8
  rw [rheFrac_toRat _ (fracMulNat_den_pos _ _ (valFrac_den_pos m e)), fracMulNat_toRat,
    valFrac_toRat]
  norm_num

theorem rheQ_natCast (k : ℕ) : rheQ ((k : ℕ) : ℚ) = (k : ℤ) := by
  have := rheQ_intCast (k : ℤ)
  rwa [Int.cast_natCast] at this

theorem natPow_cast_zpow (k : ℕ) : ((2 ^ k : ℕ) : ℚ) = (2:ℚ) ^ (k : ℤ) := by
  push_cast
  rw [zpow_natCast]

/-- Distance between the 8-digit decimal rounding (scaled back down) and
the exact value. -/
theorem rnd8_err (m : ℕ) (e : ℤ) :
    |((rnd8 m e : ℕ) : ℚ) / (10:ℚ) ^ (8:ℕ) - fval m e| ≤ 1 / (2 * 10 ^ 8) := by
  have h := rheQ_sub_abs_le (fval m e * (10:ℚ) ^ (8:ℕ))
  have hcast : ((rnd8 m e : ℕ) : ℚ) = ((rheQ (fval m e * (10:ℚ) ^ (8:ℕ)) : ℤ) : ℚ) := by
    exact_mod_cast rnd8_toRat m e
  have hp : (0:ℚ) < (10:ℚ) ^ (8:ℕ) := by positivity
  have hkey : ((rheQ (fval m e * (10:ℚ) ^ (8:ℕ)) : ℤ) : ℚ) / (10:ℚ) ^ (8:ℕ) - fval m e =
      (((rheQ (fval m e * (10:ℚ) ^ (8:ℕ)) : ℤ) : ℚ) - fval m e * (10:ℚ) ^ (8:ℕ)) /
        (10:ℚ) ^ (8:ℕ) := by
    field_simp
    ring
  rw [hcast, hkey, abs_div, abs_of_pos hp]
  calc |((rheQ (fval m e * (10:ℚ) ^ (8:ℕ)) : ℤ) : ℚ) - fval m e * (10:ℚ) ^ (8:ℕ)| /
        (10:ℚ) ^ (8:ℕ)
      ≤ (1/2) / (10:ℚ) ^ (8:ℕ) := by
        rw [div_le_div_iff_of_pos_right hp]
        exact h
    _ = 1 / (2 * 10 ^ 8) := by ring

/-- If the exact value is a natural number, the decimal rounding is
exact. -/
theorem rnd8_exact (m : ℕ) (e : ℤ) (k : ℕ) (hk : fval m e = (k : ℚ)) :
    ((rnd8 m e : ℕ) : ℚ) = fval m e * (10:ℚ) ^ (8:ℕ) := by
  have h1 : fval m e * (10:ℚ) ^ (8:ℕ) = ((k * 10 ^ 8 : ℕ) : ℚ) := by
    rw [hk]
    push_cast
    ring
  have h2 := rnd8_toRat m e
  rw [h1] at h2 ⊢
  rw [rheQ_natCast] at h2
  exact_mod_cast h2

/-- The decimal rounding depends only on the value. -/
theorem rnd8_congr (m : ℕ) (e : ℤ) (m' : ℕ) (e' : ℤ) (h : fval m e = fval m' e') :
    rnd8 m e = rnd8 m' e' := by
  have h1 := rnd8_toRat m e
  have h2 := rnd8_toRat m' e'
  rw [h] at h1
  omega

/-- Normalization: a well-formed magnitude at least `2^26` has a
representation with a normal significand strictly below `2^53` and
exponent at least `-26`. -/
theorem wf_normalize (m : ℕ) (e : ℤ) (hwf : wellFormed m e)
    (hbig : (2:ℚ) ^ (26:ℤ) ≤ fval m e) :
    ∃ m₂ e₂, fval m₂ e₂ = fval m e ∧ 2 ^ 52 ≤ m₂ ∧ m₂ < 2 ^ 53 ∧ -26 ≤ e₂ ∧
      fval m₂ e₂ < (2:ℚ) ^ (1024 : ℤ) := by
  obtain ⟨he1074, hm53, hofl, hnorm⟩ := hwf
  by_cases hm : m = 2 ^ 53
  · have hveq : fval (2 ^ 52) (e + 1) = fval m e := by
      rw [fval, fval, hm]
      rw [natPow_cast_zpow 52, natPow_cast_zpow 53, ← zpow_add₀ two_ne_zero,
        ← zpow_add₀ two_ne_zero]
      congr 1
      omega
    refine ⟨2 ^ 52, e + 1, hveq, le_refl _, by norm_num, ?_, by rw [hveq]; exact hofl⟩
    rw [fval, hm] at hbig
    by_contra hcon
    push_neg at hcon
    have he : e ≤ -28 := by omega
    have hlt : ((2 ^ 53 : ℕ) : ℚ) * (2:ℚ) ^ e ≤ ((2 ^ 53 : ℕ) : ℚ) * (2:ℚ) ^ (-28 : ℤ) := by
      apply mul_le_mul_of_nonneg_left _ (by positivity)
      exact zpow_le_zpow_right₀ (by norm_num) he
    have hval : ((2 ^ 53 : ℕ) : ℚ) * (2:ℚ) ^ (-28 : ℤ) < (2:ℚ) ^ (26:ℤ) := by
      rw [natPow_cast_zpow 53, ← zpow_add₀ two_ne_zero]
      apply zpow_lt_zpow_right₀ (by norm_num)
      omega
    linarith
  · have hm' : m < 2 ^ 53 := lt_of_le_of_ne hm53 hm
    have hepos : -1074 < e := by
      by_contra hcon
      push_neg at hcon
      have he : e = -1074 := by omega
      rw [fval, he] at hbig
      have hub : (m : ℚ) * (2:ℚ) ^ (-1074 : ℤ) ≤ ((2 ^ 53 : ℕ) : ℚ) * (2:ℚ) ^ (-1074 : ℤ) := by
        apply mul_le_mul_of_nonneg_right _ (by positivity)
        exact_mod_cast hm53
      have hval : ((2 ^ 53 : ℕ) : ℚ) * (2:ℚ) ^ (-1074 : ℤ) < (2:ℚ) ^ (26:ℤ) := by
        rw [natPow_cast_zpow 53, ← zpow_add₀ two_ne_zero]
        apply zpow_lt_zpow_right₀ (by norm_num)
        omega
      linarith
    refine ⟨m, e, rfl, hnorm hepos, hm', ?_, hofl⟩
    by_contra hcon
    push_neg at hcon
    have he : e ≤ -27 := by omega
    rw [fval] at hbig
    have hub : (m : ℚ) * (2:ℚ) ^ e < ((2 ^ 53 : ℕ) : ℚ) * (2:ℚ) ^ (-27 : ℤ) := by
      have h1 : (m : ℚ) * (2:ℚ) ^ e < ((2 ^ 53 : ℕ) : ℚ) * (2:ℚ) ^ e := by
        apply mul_lt_mul_of_pos_right _ (zpow_pos (by norm_num) e)
        exact_mod_cast hm'
      have h2 : ((2 ^ 53 : ℕ) : ℚ) * (2:ℚ) ^ e ≤ ((2 ^ 53 : ℕ) : ℚ) * (2:ℚ) ^ (-27 : ℤ) := by
        apply mul_le_mul_of_nonneg_left _ (by positivity)
        exact zpow_le_zpow_right₀ (by norm_num) he
      linarith
    have hval : ((2 ^ 53 : ℕ) : ℚ) * (2:ℚ) ^ (-27 : ℤ) ≤ (2:ℚ) ^ (26:ℤ) := by
      rw [natPow_cast_zpow 53, ← zpow_add₀ two_ne_zero]
      apply zpow_le_zpow_right₀ (by norm_num)
      omega
    linarith

/-! ### Round-trip of the decimal rendering: large magnitudes are exact -/

theorem reparse_big (m : ℕ) (e : ℤ) (hwf : wellFormed m e)
    (hbig : (2:ℚ) ^ (26:ℤ) ≤ fval m e) :
    0 < rnd8 m e ∧
    fval (rmM (decFrac (rnd8 m e) (-8))) (rmE (decFrac (rnd8 m e) (-8))) = fval m e := by
  obtain ⟨m₂, e₂, hveq, hm2lo, hm2hi, he2, hofl⟩ := wf_normalize m e hwf hbig
  set n := rnd8 m e with hn
  set D := decFrac n (-8) with hD
  have hDden : 0 < D.den := decFrac_den_pos _ _
  have hDnum : D.num = n := by rw [hD]; rfl
  have hdval : D.toRat = (n : ℚ) / (10:ℚ) ^ (8:ℕ) := by
    rw [hD, decFrac_toRat]
    rw [show ((-8 : ℤ)) = -((8:ℕ) : ℤ) by norm_num, zpow_neg, zpow_natCast]
    rw [div_eq_mul_inv]
  have herr : |D.toRat - fval m e| ≤ 1 / (2 * 10 ^ 8) := by
    rw [hdval]
    exact rnd8_err m e
  have herr' := abs_le.mp herr
  have h26 : (2:ℚ) ^ (26:ℤ) = 67108864 := by norm_num
  have hE2 : (0:ℚ) < (2:ℚ) ^ e₂ := zpow_pos (by norm_num) _
  have hE2ge : (2:ℚ) ^ (-26 : ℤ) ≤ (2:ℚ) ^ e₂ := zpow_le_zpow_right₀ (by norm_num) he2
  have h2neg26 : (2:ℚ) ^ (-26 : ℤ) = 1 / 67108864 := by norm_num
  have hδE : 1 / (2 * (10:ℚ) ^ 8) < (2:ℚ) ^ e₂ := by
    rw [h2neg26] at hE2ge
    norm_num at hE2ge ⊢
    linarith
  have hxlo : (2:ℚ) ^ ((e₂ + 52 : ℤ)) ≤ fval m e := by
    rw [← hveq, fval]
    rw [zpow_add₀ two_ne_zero]
    calc (2:ℚ) ^ e₂ * (2:ℚ) ^ (52:ℤ) = (2:ℚ) ^ (52:ℤ) * (2:ℚ) ^ e₂ := by ring
      _ ≤ (m₂ : ℚ) * (2:ℚ) ^ e₂ := by
          apply mul_le_mul_of_nonneg_right _ (le_of_lt hE2)
          rw [show ((52:ℤ)) = ((52:ℕ) : ℤ) by norm_num, zpow_natCast]
          exact_mod_cast hm2lo
  have hxhi : fval m e ≤ ((2:ℚ) ^ (53:ℤ) - 1) * (2:ℚ) ^ e₂ := by
    rw [← hveq, fval]
    apply mul_le_mul_of_nonneg_right _ (le_of_lt hE2)
    have : m₂ ≤ 2 ^ 53 - 1 := by omega
    have hcast : ((m₂ : ℕ) : ℚ) ≤ ((2 ^ 53 - 1 : ℕ) : ℚ) := by exact_mod_cast this
    calc ((m₂ : ℕ) : ℚ) ≤ ((2 ^ 53 - 1 : ℕ) : ℚ) := hcast
      _ = (2:ℚ) ^ (53:ℤ) - 1 := by
          rw [show ((53:ℤ)) = ((53:ℕ) : ℤ) by norm_num, zpow_natCast]
          push_cast
          norm_num
  have hnpos : 0 < n := by
    rcases Nat.eq_zero_or_pos n with h0 | h0
    · exfalso
      rw [h0] at hdval
      simp at hdval
      rw [hdval] at herr'
      rw [h26] at hbig
      have := herr'.1
      norm_num at this
      linarith
    · exact h0
  have hdge : (2:ℚ) ^ ((e₂ + 52 : ℤ)) ≤ D.toRat := by
    by_contra hcon
    push_neg at hcon
    by_cases hm2 : m₂ = 2 ^ 52
    · -- the value is exactly 2^(e₂+52), an integer, so the rounding is exact
      have hk : fval m e = (((2 ^ (e₂ + 52).toNat : ℕ) : ℚ)) := by
        rw [← hveq, fval, hm2, natPow_cast_zpow, natPow_cast_zpow]
        rw [← zpow_add₀ two_ne_zero]
        congr 1
        omega
      have hexact := rnd8_exact m e _ hk
      have hdx : D.toRat = fval m e := by
        rw [hdval, ← hn] at *
        rw [hexact]
        field_simp
      rw [hdx] at hcon
      have : (2:ℚ) ^ ((e₂ + 52 : ℤ)) ≤ fval m e := hxlo
      linarith
    · have hm2' : 2 ^ 52 < m₂ := lt_of_le_of_ne hm2lo (fun hh => hm2 hh.symm)
      have hgap : (2:ℚ) ^ e₂ ≤ fval m e - (2:ℚ) ^ ((e₂ + 52 : ℤ)) := by
        rw [← hveq, fval, zpow_add₀ two_ne_zero]
        have : ((2 ^ 52 + 1 : ℕ) : ℚ) ≤ (m₂ : ℚ) := by exact_mod_cast hm2'
        have hstep : ((2 ^ 52 + 1 : ℕ) : ℚ) * (2:ℚ) ^ e₂ ≤ (m₂ : ℚ) * (2:ℚ) ^ e₂ :=
          mul_le_mul_of_nonneg_right this (le_of_lt hE2)
        have hid : ((2 ^ 52 + 1 : ℕ) : ℚ) * (2:ℚ) ^ e₂ =
            (2:ℚ) ^ e₂ * (2:ℚ) ^ (52:ℤ) + (2:ℚ) ^ e₂ := by
          push_cast
          rw [show ((52:ℤ)) = ((52:ℕ) : ℤ) by norm_num, zpow_natCast]
          ring
        linarith
      have : D.toRat < fval m e - (2:ℚ) ^ e₂ + 0 := by linarith
      have hlow := herr'.1
      linarith
  have hdlt : D.toRat < (2:ℚ) ^ ((e₂ + 53 : ℤ)) := by
    have : D.toRat ≤ fval m e + 1 / (2 * 10 ^ 8) := by linarith [herr'.2]
    have hsum : ((2:ℚ) ^ (53:ℤ) - 1) * (2:ℚ) ^ e₂ + 1 / (2 * 10 ^ 8) <
        (2:ℚ) ^ ((e₂ + 53 : ℤ)) := by
      rw [zpow_add₀ two_ne_zero]
      have : (2:ℚ) ^ e₂ * (2:ℚ) ^ (53:ℤ) - (2:ℚ) ^ e₂ = ((2:ℚ) ^ (53:ℤ) - 1) * (2:ℚ) ^ e₂ := by
        ring
      linarith [hδE]
    linarith
  have hF : fracLog2 D = e₂ + 52 := by
    obtain ⟨hf1, hf2⟩ := fracLog2_spec D (by rw [hDnum]; exact hnpos) hDden
    have h1 : (2:ℚ) ^ fracLog2 D < (2:ℚ) ^ ((e₂ + 53 : ℤ)) := lt_of_le_of_lt hf1 hdlt
    have h2 : (2:ℚ) ^ ((e₂ + 52 : ℤ)) < (2:ℚ) ^ (fracLog2 D + 1) := lt_of_le_of_lt hdge hf2
    have h1' : fracLog2 D < e₂ + 53 := by
      by_contra hcc
      push_neg at hcc
      exact absurd h1 (not_lt.mpr (zpow_le_zpow_right₀ (by norm_num) hcc))
    have h2' : e₂ + 52 < fracLog2 D + 1 := by
      by_contra hcc
      push_neg at hcc
      exact absurd h2 (not_lt.mpr (zpow_le_zpow_right₀ (by norm_num) hcc))
    omega
  have hE : rmE D = e₂ := by
    rw [rmE, hF]
    omega
  have hM : rmM D = m₂ := by
    have hmr := rmM_toRat D hDden
    rw [hE] at hmr
    have habs : |D.toRat / (2:ℚ) ^ e₂ - ((m₂ : ℤ) : ℚ)| < 1/2 := by
      have hkey : D.toRat / (2:ℚ) ^ e₂ - ((m₂ : ℤ) : ℚ) =
          (D.toRat - fval m e) / (2:ℚ) ^ e₂ := by
        rw [← hveq, fval]
        field_simp
        ring
      rw [hkey, abs_div, abs_of_pos hE2]
      rw [div_lt_iff₀ hE2]
      calc |D.toRat - fval m e| ≤ 1 / (2 * 10 ^ 8) := herr
        _ < 1/2 * (2:ℚ) ^ (-26:ℤ) := by
            rw [h2neg26]
            norm_num
        _ ≤ 1/2 * (2:ℚ) ^ e₂ := by
            apply mul_le_mul_of_nonneg_left hE2ge (by norm_num)
    have := rheQ_eq_of_abs_lt _ _ habs
    rw [this] at hmr
    exact_mod_cast hmr
  refine ⟨hnpos, ?_⟩
  rw [hE, hM, hveq]

/-! ### Round-trip of the decimal rendering: small magnitudes are close -/

theorem reparse_small (m : ℕ) (e : ℤ) (hsmall : fval m e < (2:ℚ) ^ (26:ℤ))
    (hnpos : 0 < rnd8 m e) :
    |fval (rmM (decFrac (rnd8 m e) (-8))) (rmE (decFrac (rnd8 m e) (-8))) - fval m e| ≤
      1 / 10 ^ 8 ∧
    fval (rmM (decFrac (rnd8 m e) (-8))) (rmE (decFrac (rnd8 m e) (-8))) < (2:ℚ) ^ (1024:ℤ) ∧
    rnd8 (rmM (decFrac (rnd8 m e) (-8))) (rmE (decFrac (rnd8 m e) (-8))) = rnd8 m e := by
  set n := rnd8 m e with hn
  set D := decFrac n (-8) with hD
  have hDden : 0 < D.den := decFrac_den_pos _ _
  have hDnum : D.num = n := by rw [hD]; rfl
  have hp10 : (0:ℚ) < (10:ℚ) ^ (8:ℕ) := by positivity
  have hdval : D.toRat = (n : ℚ) / (10:ℚ) ^ (8:ℕ) := by
    rw [hD, decFrac_toRat]
    rw [show ((-8 : ℤ)) = -((8:ℕ) : ℤ) by norm_num, zpow_neg, zpow_natCast]
    rw [div_eq_mul_inv]
  have herr : |D.toRat - fval m e| ≤ 1 / (2 * 10 ^ 8) := by
    rw [hdval]
    exact rnd8_err m e
  have herr' := abs_le.mp herr
  have h26 : (2:ℚ) ^ (26:ℤ) = 67108864 := by norm_num
  have hnQ : (n : ℚ) = D.toRat * (10:ℚ) ^ (8:ℕ) := by
    rw [hdval]
    field_simp
  have hd26 : D.toRat ≤ (2:ℚ) ^ (26:ℤ) := by
    by_contra hcon
    push_neg at hcon
    have hgt : (6710886400000000:ℚ) < (n:ℚ) := by
      have hmul := mul_lt_mul_of_pos_right hcon hp10
      rw [← hnQ, h26] at hmul
      norm_num at hmul ⊢
      linarith
    have h1' : (6710886400000000 : ℕ) < n := by exact_mod_cast hgt
    have hge : ((6710886400000001 : ℕ) : ℚ) ≤ (n:ℚ) := by exact_mod_cast h1'
    have hdge' : (6710886400000001:ℚ) / (10:ℚ) ^ (8:ℕ) ≤ D.toRat := by
      rw [hdval]
      apply (div_le_div_iff_of_pos_right hp10).mpr
      exact_mod_cast hge
    have hub : D.toRat < 67108864 + 1/(2*10^8) := by
      rw [h26] at hsmall
      linarith [herr'.2]
    have hcontra : (6710886400000001:ℚ) / (10:ℚ) ^ (8:ℕ) < 67108864 + 1/(2*10^8) :=
      lt_of_le_of_lt hdge' hub
    norm_num at hcontra
  rcases eq_or_lt_of_le hd26 with heq | hlt
  · -- the rounded decimal is exactly 2^26
    have hF : fracLog2 D = 26 := by
      obtain ⟨hf1, hf2⟩ := fracLog2_spec D (by rw [hDnum]; exact hnpos) hDden
      rw [heq] at hf1 hf2
      have h1 : fracLog2 D ≤ 26 := by
        by_contra hcc
        push_neg at hcc
        have h2 : (2:ℚ) ^ (27:ℤ) ≤ (2:ℚ) ^ fracLog2 D :=
          zpow_le_zpow_right₀ (by norm_num) (by omega)
        have h3 : (2:ℚ) ^ (26:ℤ) < (2:ℚ) ^ (27:ℤ) := by norm_num
        linarith
      have h2 : 26 < fracLog2 D + 1 := by
        by_contra hcc
        push_neg at hcc
        exact absurd hf2 (not_lt.mpr (zpow_le_zpow_right₀ (by norm_num) hcc))
      omega
    have hE : rmE D = -26 := by
      rw [rmE, hF]
      rfl
    have hM : rmM D = 2 ^ 52 := by
      have hmr := rmM_toRat D hDden
      rw [hE, heq] at hmr
      have hdiv : (2:ℚ) ^ (26:ℤ) / (2:ℚ) ^ (-26:ℤ) = ((2 ^ 52 : ℕ) : ℚ) := by
        rw [natPow_cast_zpow, ← zpow_sub₀ two_ne_zero]
        norm_num
      rw [hdiv, rheQ_natCast] at hmr
      exact_mod_cast hmr
    have hyval : fval (rmM D) (rmE D) = (2:ℚ) ^ (26:ℤ) := by
      rw [hM, hE, fval, natPow_cast_zpow, ← zpow_add₀ two_ne_zero]
      norm_num
    refine ⟨?_, ?_, ?_⟩
    · rw [hyval, ← heq]
      calc |D.toRat - fval m e| ≤ 1/(2*10^8) := herr
        _ ≤ 1/10^8 := by norm_num
    · rw [hyval]
      apply zpow_lt_zpow_right₀ (by norm_num)
      norm_num
    · have h1 := rnd8_toRat (rmM D) (rmE D)
      rw [hyval] at h1
      have hik : (2:ℚ) ^ (26:ℤ) * (10:ℚ) ^ (8:ℕ) = ((6710886400000000 : ℕ) : ℚ) := by
        rw [h26]
        norm_num
      rw [hik, rheQ_natCast] at h1
      have h2 : (n:ℚ) = ((6710886400000000 : ℕ) : ℚ) := by
        rw [hnQ, heq, hik]
      have h3 : n = 6710886400000000 := by exact_mod_cast h2
      omega
  · -- the rounded decimal is strictly below 2^26
    obtain ⟨hf1, hf2⟩ := fracLog2_spec D (by rw [hDnum]; exact hnpos) hDden
    have hF25 : fracLog2 D ≤ 25 := by
      by_contra hcc
      push_neg at hcc
      have h2 : (2:ℚ) ^ (26:ℤ) ≤ (2:ℚ) ^ fracLog2 D :=
        zpow_le_zpow_right₀ (by norm_num) (by omega)
      linarith
    have hE1 : rmE D - 1 ≤ -28 := by
      rw [rmE]
      omega
    have happrox := roundMag_approx D hDden
    have hEbound : (2:ℚ) ^ (rmE D - 1) ≤ (2:ℚ) ^ (-28:ℤ) :=
      zpow_le_zpow_right₀ (by norm_num) hE1
    have h28 : (2:ℚ) ^ (-28:ℤ) = 1/268435456 := by norm_num
    have hyd : |fval (rmM D) (rmE D) - D.toRat| ≤ 1/268435456 := by
      calc |fval (rmM D) (rmE D) - D.toRat| ≤ (2:ℚ) ^ (rmE D - 1) := happrox
        _ ≤ (2:ℚ) ^ (-28:ℤ) := hEbound
        _ = 1/268435456 := h28
    refine ⟨?_, ?_, ?_⟩
    · calc |fval (rmM D) (rmE D) - fval m e|
          ≤ |fval (rmM D) (rmE D) - D.toRat| + |D.toRat - fval m e| := abs_sub_le _ _ _
        _ ≤ 1/268435456 + 1/(2*10^8) := by linarith
        _ ≤ 1/10^8 := by norm_num
    · have h1 : fval (rmM D) (rmE D) ≤ D.toRat + 1/268435456 := by
        have := abs_le.mp hyd
        linarith [this.2]
      have h4 : (2:ℚ) ^ (27:ℤ) ≤ (2:ℚ) ^ (1024:ℤ) := zpow_le_zpow_right₀ (by norm_num) (by norm_num)
      have h5 : (2:ℚ) ^ (27:ℤ) = 134217728 := by norm_num
      rw [h26] at hlt
      linarith
    · have h1 := rnd8_toRat (rmM D) (rmE D)
      have hkey : |fval (rmM D) (rmE D) * (10:ℚ) ^ (8:ℕ) - ((n : ℤ) : ℚ)| < 1/2 := by
        have hsub : fval (rmM D) (rmE D) * (10:ℚ) ^ (8:ℕ) - ((n : ℤ) : ℚ) =
            (fval (rmM D) (rmE D) - D.toRat) * (10:ℚ) ^ (8:ℕ) := by
          rw [Int.cast_natCast, hnQ]
          ring
        rw [hsub, abs_mul, abs_of_pos hp10]
        calc |fval (rmM D) (rmE D) - D.toRat| * (10:ℚ) ^ (8:ℕ)
            ≤ (1/268435456) * (10:ℚ) ^ (8:ℕ) :=
              mul_le_mul_of_nonneg_right hyd (le_of_lt hp10)
          _ < 1/2 := by norm_num
      have h2 := rheQ_eq_of_abs_lt _ _ hkey
      rw [h2] at h1
      exact_mod_cast h1

/-! ### Digit strings: values, characters, and list plumbing -/

theorem digitsF_spec : ∀ f n, n < f →
    digitsVal (digitsF f n) = n ∧ (∀ d ∈ digitsF f n, d < 10) ∧ digitsF f n ≠ [] := by
  intro f
  induction f with
  | zero => intro n h; omega
  | succ f ih =>
    intro n h
    by_cases hn : n < 10
    · refine ⟨?_, ?_, ?_⟩ <;> simp [digitsF, hn, digitsVal]
    · have hd : n / 10 < n := Nat.div_lt_self (by omega) (by norm_num)
      obtain ⟨ha, hb, _⟩ := ih (n / 10) (by omega)
      rw [digitsF, if_neg hn]
      refine ⟨?_, ?_, by simp⟩
      · rw [digitsVal, List.foldl_append]
        have hstep : List.foldl (fun a d => 10 * a + d)
            (List.foldl (fun a d => 10 * a + d) 0 (digitsF f (n / 10))) [n % 10] =
            10 * digitsVal (digitsF f (n / 10)) + n % 10 := rfl
        rw [hstep, ha]
        omega
      · intro d hd'
        rcases List.mem_append.mp hd' with h1 | h1
        · exact hb d h1
        · have : d = n % 10 := by simpa using h1
          subst this
          exact Nat.mod_lt _ (by norm_num)

theorem natDigits_spec (n : ℕ) :
    digitsVal (natDigits n) = n ∧ (∀ d ∈ natDigits n, d < 10) ∧ natDigits n ≠ [] :=
  digitsF_spec (n + 1) n (by omega)

theorem digitsF_length_le : ∀ f n k, n < f → 1 ≤ k → n < 10 ^ k →
    (digitsF f n).length ≤ k := by
  intro f
  induction f with
  | zero => intro n k h _ _; omega
  | succ f ih =>
    intro n k h hk hnk
    by_cases hn : n < 10
    · rw [digitsF, if_pos hn]
      simpa using hk
    · have hd : n / 10 < n := Nat.div_lt_self (by omega) (by norm_num)
      have hk2 : 2 ≤ k := by
        by_contra hcc
        push_neg at hcc
        interval_cases k
        simp at hnk
        omega
      have hpow : 10 ^ k = 10 * 10 ^ (k - 1) := by
        rw [← pow_succ']
        congr 1
        omega
      have hdiv : n / 10 < 10 ^ (k - 1) := by
        rw [Nat.div_lt_iff_lt_mul (by norm_num)]
        omega
      have := ih (n / 10) (k - 1) (by omega) (by omega) hdiv
      rw [digitsF, if_neg hn]
      simp only [List.length_append, List.length_cons, List.length_nil]
      omega

theorem natDigits_length_le (n k : ℕ) (hk : 1 ≤ k) (h : n < 10 ^ k) :
    (natDigits n).length ≤ k :=
  digitsF_length_le (n + 1) n k (by omega) hk h

theorem isDigitC_bounds (c : Char) (h : isDigitC c = true) :
    48 ≤ c.toNat ∧ c.toNat ≤ 57 := by
  simp only [isDigitC, Bool.and_eq_true, decide_eq_true_eq] at h
  exact h

theorem isDigitC_not_ws (c : Char) (h : isDigitC c = true) : isWS c = false := by
  have hb := isDigitC_bounds c h
  simp only [isWS, Bool.or_eq_false_iff, decide_eq_false_iff_not]
  refine ⟨⟨⟨?_, ?_⟩, ?_⟩, ?_⟩ <;> rintro rfl <;> simp_all

theorem isDigitC_ne_dot (c : Char) (h : isDigitC c = true) : c ≠ '.' := by
  rintro rfl
  exact absurd h (by decide)

theorem isDigitC_ne_dash (c : Char) (h : isDigitC c = true) : c ≠ '-' := by
  rintro rfl
  exact absurd h (by decide)

theorem isDigitC_ne_plus (c : Char) (h : isDigitC c = true) : c ≠ '+' := by
  rintro rfl
  exact absurd h (by decide)

theorem isDigitC_toLower (c : Char) (h : isDigitC c = true) : Char.toLower c = c := by
  have hb := isDigitC_bounds c h
  rw [Char.toLower, if_neg]
  intro hcon
  omega

theorem isDigitC_ne_i (c : Char) (h : isDigitC c = true) : c ≠ 'i' := by
  rintro rfl
  exact absurd h (by decide)

theorem isDigitC_ne_n (c : Char) (h : isDigitC c = true) : c ≠ 'n' := by
  rintro rfl
  exact absurd h (by decide)

theorem charOfDigit_isDigit (d : ℕ) (h : d < 10) : isDigitC (charOfDigit d) = true := by
  interval_cases d <;> decide

theorem digitValC_charOfDigit (d : ℕ) (h : d < 10) : digitValC (charOfDigit d) = d := by
  interval_cases d <;> decide

theorem natChars_ne_nil (n : ℕ) : natChars n ≠ [] := by
  rw [natChars]
  intro h
  exact (natDigits_spec n).2.2 (List.map_eq_nil_iff.mp h)

theorem natChars_all_digits (n : ℕ) : ∀ c ∈ natChars n, isDigitC c = true := by
  intro c hc
  rw [natChars] at hc
  obtain ⟨d, hd, rfl⟩ := List.mem_map.mp hc
  exact charOfDigit_isDigit d ((natDigits_spec n).2.1 d hd)

theorem padZeros8_all_digits (l : List Char) (h : ∀ c ∈ l, isDigitC c = true) :
    ∀ c ∈ padZeros8 l, isDigitC c = true := by
  intro c hc
  rw [padZeros8] at hc
  rcases List.mem_append.mp hc with h1 | h1
  · have : c = '0' := List.eq_of_mem_replicate h1
    subst this
    decide
  · exact h c h1

theorem padZeros8_length (l : List Char) (h : l.length ≤ 8) : (padZeros8 l).length = 8 := by
  rw [padZeros8]
  simp
  omega

/-! ### Values of rendered digit strings -/

theorem foldl_digitsValC_init (ys : List Char) : ∀ init : ℕ,
    ys.foldl (fun a c => 10 * a + digitValC c) init =
      init * 10 ^ ys.length + digitsValC ys := by
  induction ys with
  | nil => intro init; simp [digitsValC]
  | cons c tl ih =>
    intro init
    have h1 : digitsValC (c :: tl) = (digitValC c) * 10 ^ tl.length + digitsValC tl := by
      rw [digitsValC, List.foldl_cons, ih (10 * 0 + digitValC c)]
      ring_nf
    rw [List.foldl_cons, ih (10 * init + digitValC c), h1]
    simp [List.length_cons]
    ring

theorem digitsValC_append (xs ys : List Char) :
    digitsValC (xs ++ ys) = digitsValC xs * 10 ^ ys.length + digitsValC ys := by
  rw [digitsValC, List.foldl_append, ← digitsValC, foldl_digitsValC_init]

theorem digitsValC_natChars (n : ℕ) : digitsValC (natChars n) = n := by
  have haux : ∀ (ds : List ℕ) (init : ℕ), (∀ d ∈ ds, d < 10) →
      (ds.map charOfDigit).foldl (fun a c => 10 * a + digitValC c) init =
        ds.foldl (fun a d => 10 * a + d) init := by
    intro ds
    induction ds with
    | nil => intro init _; rfl
    | cons d tl ih =>
      intro init hmem
      rw [List.map_cons, List.foldl_cons, List.foldl_cons,
        digitValC_charOfDigit d (hmem d (List.mem_cons_self d tl))]
      exact ih _ (fun d' hd' => hmem d' (List.mem_cons_of_mem d hd'))
  rw [natChars, digitsValC, haux _ _ (natDigits_spec n).2.1, ← digitsVal,
    (natDigits_spec n).1]

theorem digitsValC_replicate_zero (k : ℕ) : digitsValC (List.replicate k '0') = 0 := by
  induction k with
  | zero => rfl
  | succ k ih =>
    rw [List.replicate_succ, digitsValC, List.foldl_cons]
    have : (10 * 0 + digitValC '0') = 0 := by decide
    rw [this]
    exact ih

theorem digitsValC_padZeros8 (l : List Char) : digitsValC (padZeros8 l) = digitsValC l := by
  rw [padZeros8, digitsValC_append, digitsValC_replicate_zero]
  simp

/-! ### takeWhile, dropWhile and trim over rendered strings -/

theorem takeWhile_append_all {α : Type} (p : α → Bool) (xs ys : List α)
    (h : ∀ x ∈ xs, p x = true) : (xs ++ ys).takeWhile p = xs ++ ys.takeWhile p := by
  induction xs with
  | nil => rfl
  | cons a tl ih =>
    rw [List.cons_append, List.takeWhile_cons, h a (List.mem_cons_self a tl)]
    rw [ih (fun x hx => h x (List.mem_cons_of_mem a hx))]
    rfl

theorem dropWhile_append_all {α : Type} (p : α → Bool) (xs ys : List α)
    (h : ∀ x ∈ xs, p x = true) : (xs ++ ys).dropWhile p = ys.dropWhile p := by
  induction xs with
  | nil => rfl
  | cons a tl ih =>
    rw [List.cons_append, List.dropWhile_cons, h a (List.mem_cons_self a tl)]
    exact ih (fun x hx => h x (List.mem_cons_of_mem a hx))

theorem takeWhile_cons_neg {α : Type} (p : α → Bool) (a : α) (l : List α)
    (h : p a = false) : (a :: l).takeWhile p = [] := by
  rw [List.takeWhile_cons, h]
  simp

theorem dropWhile_cons_neg {α : Type} (p : α → Bool) (a : α) (l : List α)
    (h : p a = false) : (a :: l).dropWhile p = a :: l := by
  rw [List.dropWhile_cons, h]
  simp

theorem takeWhile_all {α : Type} (p : α → Bool) (xs : List α)
    (h : ∀ x ∈ xs, p x = true) : xs.takeWhile p = xs := by
  have := takeWhile_append_all p xs [] h
  simpa using this

theorem dropWhile_all {α : Type} (p : α → Bool) (xs : List α)
    (h : ∀ x ∈ xs, p x = true) : xs.dropWhile p = [] := by
  have := dropWhile_append_all p xs [] h
  simpa using this

theorem dropWhile_no_ws (cs : List Char) (h : ∀ c ∈ cs, isWS c = false) :
    cs.dropWhile isWS = cs := by
  cases cs with
  | nil => rfl
  | cons c tl => exact dropWhile_cons_neg _ _ _ (h c (List.mem_cons_self c tl))

theorem trimChars_no_ws (cs : List Char) (h : ∀ c ∈ cs, isWS c = false) :
    trimChars cs = cs := by
  rw [trimChars, dropWhile_no_ws cs h,
    dropWhile_no_ws cs.reverse (fun c hc => h c (List.mem_reverse.mp hc)),
    List.reverse_reverse]

/-! ### Structure of the rendered string -/

theorem formatFixed8_finite_data (s : Bool) (m : ℕ) (e : ℤ) :
    (formatFixed8 (.finite s m e)).data =
      (if s then ['-'] else []) ++ natChars (rnd8 m e / 10 ^ 8) ++
        '.' :: padZeros8 (natChars (rnd8 m e % 10 ^ 8)) := rfl

theorem readSign_not_sign (c : Char) (tl : List Char) (h1 : c ≠ '-') (h2 : c ≠ '+') :
    readSign (c :: tl) = (false, c :: tl) := by
  unfold readSign
  split
  · next heq =>
      injection heq with hc _
      exact absurd hc h1
  · next heq =>
      injection heq with hc _
      exact absurd hc h2
  · rfl

/-! ### Parsing a rendered finite value -/

theorem parseSpecial_digits_none (sign : Bool) (c0 : Char) (rest : List Char)
    (hc0 : isDigitC c0 = true) : parseSpecial sign (c0 :: rest) = none := by
  rw [parseSpecial]
  simp only [List.map_cons]
  simp only [isDigitC_toLower c0 hc0]
  rw [if_neg, if_neg, if_neg]
  · intro heq
    injection heq with h1 _
    exact isDigitC_ne_n c0 hc0 h1
  · intro heq
    injection heq with h1 _
    exact isDigitC_ne_i c0 hc0 h1
  · intro heq
    injection heq with h1 _
    exact isDigitC_ne_i c0 hc0 h1

theorem parseDec_digits_dot (sign : Bool) (ip fp : List Char) (hip_ne : ip ≠ [])
    (hip : ∀ c ∈ ip, isDigitC c = true) (hfp : ∀ c ∈ fp, isDigitC c = true) :
    parseDec sign (ip ++ '.' :: fp) =
      some (mkF64 sign (digitsValC (ip ++ fp)) (-(fp.length : ℤ))) := by
  obtain ⟨c0, ipt, rfl⟩ := List.exists_cons_of_ne_nil hip_ne
  have ht : ((c0 :: ipt) ++ '.' :: fp).takeWhile isDigitC = c0 :: ipt := by
    rw [takeWhile_append_all _ _ _ hip,
      takeWhile_cons_neg _ _ _ (by decide : isDigitC '.' = false)]
    simp
  have hd : ((c0 :: ipt) ++ '.' :: fp).dropWhile isDigitC = '.' :: fp := by
    rw [dropWhile_append_all _ _ _ hip,
      dropWhile_cons_neg _ _ _ (by decide : isDigitC '.' = false)]
  unfold parseDec
  simp only [ht, hd]
  rw [takeWhile_all _ _ hfp, dropWhile_all _ _ hfp]
  rw [if_neg (by simp)]

theorem parse_formatFixed8 (s : Bool) (m : ℕ) (e : ℤ) :
    trimChars (formatFixed8 (.finite s m e)).data = (formatFixed8 (.finite s m e)).data ∧
    parse_f64 (formatFixed8 (.finite s m e)).data = some (mkF64 s (rnd8 m e) (-8)) := by
  set n := rnd8 m e with hn
  set ip := natChars (n / 10 ^ 8) with hip_def
  set fp := padZeros8 (natChars (n % 10 ^ 8)) with hfp_def
  have hdata : (formatFixed8 (.finite s m e)).data =
      (if s then ['-'] else []) ++ ip ++ '.' :: fp := formatFixed8_finite_data s m e
  have hip_ne : ip ≠ [] := natChars_ne_nil _
  have hip_dig : ∀ c ∈ ip, isDigitC c = true := natChars_all_digits _
  have hfp_dig : ∀ c ∈ fp, isDigitC c = true :=
    padZeros8_all_digits _ (natChars_all_digits _)
  have hmodlt : n % 10 ^ 8 < 10 ^ 8 := Nat.mod_lt _ (by norm_num)
  have hfp_len : fp.length = 8 := by
    rw [hfp_def]
    apply padZeros8_length
    rw [natChars, List.length_map]
    exact natDigits_length_le _ 8 (by norm_num) hmodlt
  have hval : digitsValC (ip ++ fp) = n := by
    rw [digitsValC_append, hfp_len, hip_def, hfp_def, digitsValC_natChars,
      digitsValC_padZeros8, digitsValC_natChars]
    rw [Nat.mul_comm (n / 10 ^ 8) (10 ^ 8)]
    exact Nat.div_add_mod n (10 ^ 8)
  have htrim : trimChars (formatFixed8 (.finite s m e)).data =
      (formatFixed8 (.finite s m e)).data := by
    rw [hdata]
    apply trimChars_no_ws
    intro c hc
    rcases List.mem_append.mp hc with h1 | h2
    · rcases List.mem_append.mp h1 with h3 | h4
      · cases s with
        | true =>
          simp only [if_true] at h3
          have : c = '-' := by simpa using h3
          subst this
          decide
        | false => simp at h3
      · exact isDigitC_not_ws c (hip_dig c h4)
    · rcases List.mem_cons.mp h2 with h3 | h4
      · subst h3
        decide
      · exact isDigitC_not_ws c (hfp_dig c h4)
  refine ⟨htrim, ?_⟩
  rw [hdata]
  have hm8 : -((fp.length : ℤ)) = (-8 : ℤ) := by
    rw [hfp_len]
    norm_num
  cases s with
  | true =>
    have hshape : (if true = true then ['-'] else []) ++ ip ++ '.' :: fp =
        '-' :: (ip ++ '.' :: fp) := by simp
    rw [hshape]
    have hbody : parse_f64 ('-' :: (ip ++ '.' :: fp)) =
        match parseSpecial true (ip ++ '.' :: fp) with
        | some v => some v
        | none => parseDec true (ip ++ '.' :: fp) := rfl
    rw [hbody]
    obtain ⟨c0, ipt, hip_eq⟩ := List.exists_cons_of_ne_nil hip_ne
    have hc0 : isDigitC c0 = true := hip_dig c0 (by rw [hip_eq]; exact List.mem_cons_self _ _)
    have hspec : parseSpecial true (ip ++ '.' :: fp) = none := by
      rw [hip_eq, List.cons_append]
      exact parseSpecial_digits_none true c0 _ hc0
    rw [hspec]
    rw [parseDec_digits_dot true ip fp hip_ne hip_dig hfp_dig, hval, hm8]
  | false =>
    have hshape : (if false = true then ['-'] else []) ++ ip ++ '.' :: fp =
        ip ++ '.' :: fp := by simp
    rw [hshape]
    obtain ⟨c0, ipt, hip_eq⟩ := List.exists_cons_of_ne_nil hip_ne
    have hc0 : isDigitC c0 = true := hip_dig c0 (by rw [hip_eq]; exact List.mem_cons_self _ _)
    rw [hip_eq, List.cons_append]
    have hrs : readSign (c0 :: (ipt ++ '.' :: fp)) = (false, c0 :: (ipt ++ '.' :: fp)) :=
      readSign_not_sign c0 _ (isDigitC_ne_dash c0 hc0) (isDigitC_ne_plus c0 hc0)
    have hbody : parse_f64 (c0 :: (ipt ++ '.' :: fp)) =
        match parseSpecial (readSign (c0 :: (ipt ++ '.' :: fp))).1
            (readSign (c0 :: (ipt ++ '.' :: fp))).2 with
        | some v => some v
        | none => parseDec (readSign (c0 :: (ipt ++ '.' :: fp))).1
            (readSign (c0 :: (ipt ++ '.' :: fp))).2 := rfl
    rw [hbody, hrs]
    have hspec : parseSpecial false (c0 :: (ipt ++ '.' :: fp)) = none :=
      parseSpecial_digits_none false c0 _ hc0
    simp only [hspec]
    have hpd := parseDec_digits_dot false ip fp hip_ne hip_dig hfp_dig
    rw [hip_eq, List.cons_append] at hpd
    rw [hpd]
    rw [hip_eq] at hval
    rw [hval, hm8]

/-! ### Shape of parser results -/

theorem decFrac_num_pos (mant : ℕ) (e10 : ℤ) (h : 0 < mant) : 0 < (decFrac mant e10).num := by
  unfold decFrac
  split_ifs <;> simp <;> positivity

theorem parseSpecial_shape (sign : Bool) (cs : List Char) (v : F64)
    (h : parseSpecial sign cs = some v) : v = .inf sign ∨ v = F64.nan := by
  simp only [parseSpecial] at h
  split_ifs at h <;> cases h <;> simp

theorem parseDec_shape (sign : Bool) (cs : List Char) (v : F64)
    (h : parseDec sign cs = some v) : ∃ mant e10, v = mkF64 sign mant e10 := by
  simp only [parseDec] at h
  split at h
  · exact absurd h (by simp)
  · split at h
    · cases h
      exact ⟨_, _, rfl⟩
    · split at h
      · split at h
        · exact absurd h (by simp)
        · cases h
          exact ⟨_, _, rfl⟩
      · exact absurd h (by simp)

theorem mkF64_wf (sign : Bool) (mant : ℕ) (e10 : ℤ) (s' : Bool) (m : ℕ) (e : ℤ)
    (h : mkF64 sign mant e10 = .finite s' m e) : s' = sign ∧ wellFormed m e := by
  unfold mkF64 at h
  split at h
  · cases h
    refine ⟨rfl, le_refl _, Nat.zero_le _, ?_, ?_⟩
    · rw [fval]
      simp
      positivity
    · intro hcon
      exact absurd hcon (by norm_num)
  · next h0 =>
    have hnum : 0 < (decFrac mant e10).num :=
      decFrac_num_pos mant e10 (Nat.pos_of_ne_zero h0)
    have hspec := roundMag_finite_spec sign s' _ m e hnum (decFrac_den_pos _ _) h
    exact ⟨hspec.1, hspec.2.2.2⟩

theorem parse_f64_finite_wf (cs : List Char) (s : Bool) (m : ℕ) (e : ℤ)
    (h : parse_f64 cs = some (.finite s m e)) : wellFormed m e := by
  cases cs with
  | nil => exact absurd h (by simp [parse_f64])
  | cons c tl =>
    have hbody : parse_f64 (c :: tl) =
        match parseSpecial (readSign (c :: tl)).1 (readSign (c :: tl)).2 with
        | some v => some v
        | none => parseDec (readSign (c :: tl)).1 (readSign (c :: tl)).2 := rfl
    rw [hbody] at h
    cases hsp : parseSpecial (readSign (c :: tl)).1 (readSign (c :: tl)).2 with
    | some v =>
      rw [hsp] at h
      cases h
      rcases parseSpecial_shape _ _ _ hsp with h1 | h1 <;> exact absurd h1 (by simp)
    | none =>
      rw [hsp] at h
      obtain ⟨mant, e10, hv⟩ := parseDec_shape _ _ _ h
      exact (mkF64_wf _ _ _ _ _ _ hv.symm).2

/-! ### Rendering congruence and the 8-digit shape -/

theorem formatFixed8_congr (s : Bool) (m : ℕ) (e : ℤ) (m' : ℕ) (e' : ℤ)
    (h : rnd8 m e = rnd8 m' e') :
    formatFixed8 (.finite s m e) = formatFixed8 (.finite s m' e') := by
  apply String.ext
  rw [formatFixed8_finite_data, formatFixed8_finite_data, h]

theorem formatFixed8_has8 (s : Bool) (m : ℕ) (e : ℤ) :
    hasExactly8FracDigits (formatFixed8 (.finite s m e)) = true := by
  rw [hasExactly8FracDigits]
  have hdata := formatFixed8_finite_data s m e
  rw [hdata]
  set pre := (if s then ['-'] else []) ++ natChars (rnd8 m e / 10 ^ 8) with hpre
  set fp := padZeros8 (natChars (rnd8 m e % 10 ^ 8)) with hfp
  have hfp_dig : ∀ c ∈ fp, isDigitC c = true :=
    padZeros8_all_digits _ (natChars_all_digits _)
  have hmodlt : rnd8 m e % 10 ^ 8 < 10 ^ 8 := Nat.mod_lt _ (by norm_num)
  have hfp_len : fp.length = 8 := by
    rw [hfp]
    apply padZeros8_length
    rw [natChars, List.length_map]
    exact natDigits_length_le _ 8 (by norm_num) hmodlt
  have hdot : '.' ∈ pre ++ '.' :: fp := List.mem_append.mpr (Or.inr (List.mem_cons_self _ _))
  rw [decimalTail, if_pos hdot]
  have hrev : (pre ++ '.' :: fp).reverse = fp.reverse ++ '.' :: pre.reverse := by
    rw [List.reverse_append, List.reverse_cons, List.append_assoc, List.singleton_append]
  rw [hrev]
  have htake : (fp.reverse ++ '.' :: pre.reverse).takeWhile (fun c => c ≠ '.') =
      fp.reverse := by
    rw [takeWhile_append_all _ _ _ ?_, takeWhile_cons_neg _ _ _ (by simp), List.append_nil]
    intro x hx
    have hd := isDigitC_ne_dot x (hfp_dig x (List.mem_reverse.mp hx))
    simp [hd]
  rw [htake, List.reverse_reverse]
  simp only [Bool.and_eq_true, decide_eq_true_eq, List.all_eq_true]
  exact ⟨hfp_len, fun c hc => hfp_dig c hc⟩

/-! ### Full render-and-reparse round trip for finite values -/

theorem rnd8_zero_neg1074 : rnd8 0 (-1074) = 0 := by
  have h := rnd8_toRat 0 (-1074)
  rw [fval] at h
  simp at h
  have h0 : rheQ ((0 : ℚ)) = 0 := by
    have := rheQ_intCast 0
    simpa using this
  omega

theorem format_reparse (s : Bool) (m : ℕ) (e : ℤ) (hwf : wellFormed m e) :
    ∃ m' e', parse_f64 (trimChars (formatFixed8 (.finite s m e)).data) =
        some (.finite s m' e') ∧
      wellFormed m' e' ∧
      |fval m' e' - fval m e| ≤ 1 / 10 ^ 8 ∧
      formatFixed8 (.finite s m' e') = formatFixed8 (.finite s m e) := by
  obtain ⟨htrim, hparse⟩ := parse_formatFixed8 s m e
  rw [htrim, hparse]
  by_cases h0 : rnd8 m e = 0
  · refine ⟨0, -1074, ?_, ?_, ?_, ?_⟩
    · rw [mkF64, if_pos h0]
    · refine ⟨le_refl _, Nat.zero_le _, ?_, ?_⟩
      · rw [fval]
        simp
        positivity
      · intro hcon
        exact absurd hcon (by norm_num)
    · have herr := rnd8_err m e
      rw [h0] at herr
      simp at herr
      have hx0 : (0:ℚ) ≤ fval m e := by
        rw [fval]
        positivity
      rw [fval]
      simp
      rw [abs_of_nonneg hx0] at herr ⊢
      linarith [herr]
    · apply formatFixed8_congr
      rw [rnd8_zero_neg1074, h0]
  · have hpos : 0 < rnd8 m e := Nat.pos_of_ne_zero h0
    by_cases hbig : (2:ℚ) ^ (26:ℤ) ≤ fval m e
    · obtain ⟨hn', hval⟩ := reparse_big m e hwf hbig
      have hofl : fval (rmM (decFrac (rnd8 m e) (-8))) (rmE (decFrac (rnd8 m e) (-8))) <
          (2:ℚ) ^ (1024:ℤ) := by
        rw [hval]
        exact hwf.2.2.1
      have heq := roundMag_eq_finite s (decFrac (rnd8 m e) (-8)) hofl
      have hwf' := roundMag_finite_spec s s _ _ _
        (decFrac_num_pos _ _ hpos) (decFrac_den_pos _ _) heq
      refine ⟨rmM (decFrac (rnd8 m e) (-8)), rmE (decFrac (rnd8 m e) (-8)), ?_, hwf'.2.2.2,
        ?_, ?_⟩
      · rw [mkF64, if_neg h0, heq]
      · rw [hval]
        simp
      · exact formatFixed8_congr s _ _ _ _ (rnd8_congr _ _ _ _ hval)
    · push_neg at hbig
      obtain ⟨hclose, hofl, hrnd⟩ := reparse_small m e hbig hpos
      have heq := roundMag_eq_finite s (decFrac (rnd8 m e) (-8)) hofl
      have hwf' := roundMag_finite_spec s s _ _ _
        (decFrac_num_pos _ _ hpos) (decFrac_den_pos _ _) heq
      refine ⟨rmM (decFrac (rnd8 m e) (-8)), rmE (decFrac (rnd8 m e) (-8)), ?_, hwf'.2.2.2,
        hclose, ?_⟩
      · rw [mkF64, if_neg h0, heq]
      · exact formatFixed8_congr s _ _ _ _ hrnd

/-! ### Idempotence of the coordinate formatter -/

theorem format_coordinate_idem (str : String) :
    format_coordinate (format_coordinate str) = format_coordinate str := by
  cases hp : parse_f64 (trimChars str.data) with
  | none =>
    have h1 : format_coordinate str = str := by
      rw [format_coordinate, hp]
    rw [h1]
    exact h1
  | some v =>
    have h1 : format_coordinate str = formatFixed8 v := by
      rw [format_coordinate, hp]
    rw [h1]
    cases v with
    | nan => decide
    | inf sg => cases sg <;> decide
    | finite sg m e =>
      have hwf : wellFormed m e := parse_f64_finite_wf _ _ _ _ hp
      obtain ⟨m', e', hparse, _, _, hrender⟩ := format_reparse sg m e hwf
      rw [format_coordinate, hparse]
      exact hrender

theorem transform_fields_idem (lat lon : ℕ) : ∀ (j : ℕ) (r : List String),
    transform_fields lat lon j (transform_fields lat lon j r) =
      transform_fields lat lon j r := by
  intro j r
  induction r generalizing j with
  | nil => rfl
  | cons f fs ih =>
    simp only [transform_fields]
    rw [ih (j + 1)]
    by_cases hc : j = lat ∨ j = lon
    · simp [hc, format_coordinate_idem]
    · simp [hc]

theorem transform_row_idem (lat lon : ℕ) (r : List String) :
    transform_row lat lon (transform_row lat lon r) = transform_row lat lon r :=
  transform_fields_idem lat lon 0 r

/-! ### Claim C4: idempotence of the transform -/

/-- C4: `format_coordinate` is idempotent on every string, and running
the file transform twice on the same input yields a file identical to
running it once. -/
theorem C4_idempotent :
    (∀ s : String, format_coordinate (format_coordinate s) = format_coordinate s) ∧
    (∀ fn latN lonN header rows mp lat lon,
      find_column_indices header [latN, lonN] = FindRes.ok mp →
      mp.lookup (strLower latN) = some lat →
      mp.lookup (strLower lonN) = some lon →
      (∀ r ∈ rows, r.length = header.length) →
      (process_gtfs_file fn latN lonN
        ((process_gtfs_file fn latN lonN (some (header :: rows)) allOk).origAfter)
        allOk).origAfter =
      (process_gtfs_file fn latN lonN (some (header :: rows)) allOk).origAfter) := by
  refine ⟨format_coordinate_idem, ?_⟩
  intro fn latN lonN header rows mp lat lon hf hlat hlon hlen
  have hlen' : ∀ r ∈ rows.map (transform_row lat lon), r.length = header.length := by
    intro r hr
    obtain ⟨r0, hr0, rfl⟩ := List.mem_map.mp hr
    rw [transform_row_length]
    exact hlen r0 hr0
  rw [process_success fn latN lonN header rows mp lat lon hf hlat hlon hlen]
  rw [process_success fn latN lonN header (rows.map (transform_row lat lon)) mp lat lon
    hf hlat hlon hlen']
  simp only [List.map_map]
  rw [show (transform_row lat lon ∘ transform_row lat lon) = transform_row lat lon from
    funext (transform_row_idem lat lon)]

/-- Witness for C4 on a 1-row stops file. -/
theorem C4_idempotent_witness :
    (process_gtfs_file "stops.txt" "stop_lat" "stop_lon"
      ((process_gtfs_file "stops.txt" "stop_lat" "stop_lon"
        (some [["stop_lat", "stop_lon"], ["45.1", "-73.5"]]) allOk).origAfter)
      allOk).origAfter =
    (process_gtfs_file "stops.txt" "stop_lat" "stop_lon"
      (some [["stop_lat", "stop_lon"], ["45.1", "-73.5"]]) allOk).origAfter :=
  C4_idempotent.2 "stops.txt" "stop_lat" "stop_lon" ["stop_lat", "stop_lon"]
    [["45.1", "-73.5"]] [("stop_lat", 0), ("stop_lon", 1)] 0 1
    (by decide) (by decide) (by decide) (by decide)

/-! ### Claim C1 (amended): round trip for finite parses -/

/-- C1 amended: for every input string that parses as a FINITE
floating-point number, `format_coordinate` returns a string with
exactly 8 digits after the decimal point that parses back to a finite
float within `1e-8` of the original value.  (As stated the claim fails
for the non-finite parses `inf`, `-inf`, `infinity` and `nan`, whose
rendering has no decimal digits; see the counterexample.) -/
theorem C1_finite_roundtrip (N : String) (v : F64)
    (hp : parse_f64 (trimChars N.data) = some v) (hfin : v.isFinite = true) :
    hasExactly8FracDigits (format_coordinate N) = true ∧
    ∃ y, parse_f64 (trimChars (format_coordinate N).data) = some y ∧
      y.isFinite = true ∧ |F64.ratVal y - F64.ratVal v| ≤ 1 / 10 ^ 8 := by
  cases v with
  | inf sg => simp [F64.isFinite] at hfin
  | nan => simp [F64.isFinite] at hfin
  | finite sg m e =>
    have hwf : wellFormed m e := parse_f64_finite_wf _ _ _ _ hp
    have hfc : format_coordinate N = formatFixed8 (.finite sg m e) := by
      rw [format_coordinate, hp]
    rw [hfc]
    refine ⟨formatFixed8_has8 sg m e, ?_⟩
    obtain ⟨m', e', hparse, _, hclose, _⟩ := format_reparse sg m e hwf
    refine ⟨.finite sg m' e', hparse, rfl, ?_⟩
    have hval : |F64.ratVal (.finite sg m' e') - F64.ratVal (.finite sg m e)| =
        |fval m' e' - fval m e| := by
      cases sg with
      | false => simp [F64.ratVal]
      | true =>
        simp only [F64.ratVal, if_true]
        rw [show (-1 : ℚ) * fval m' e' - -1 * fval m e = -(fval m' e' - fval m e) by ring,
          abs_neg]
    rw [hval]
    exact hclose

/-- Witness for the amended C1 at the input `"45.1"`. -/
theorem C1_finite_roundtrip_witness :
    hasExactly8FracDigits (format_coordinate "45.1") = true ∧
    ∃ y, parse_f64 (trimChars (format_coordinate "45.1").data) = some y ∧
      y.isFinite = true ∧
      |F64.ratVal y - F64.ratVal (.finite false 6347260724825293 (-47))| ≤ 1 / 10 ^ 8 :=
  C1_finite_roundtrip "45.1" (.finite false 6347260724825293 (-47))
    (by decide) (by decide)
